import Mathlib

/-!
# Caduceus dispatch core

A shallow embedding of `caduceus_type.go`: the size-bucket health classifier
(`CaduceusHealth.IncrementBucket`), the dispatch handler
(`CaduceusHandler.HandleRequest`) and the worker pool
(`WorkerPoolFactory.New`, `WorkerPool.Send`, and the worker goroutines
started by `New`).

Go values of type `int` are embedded as `Int`; every statement below that
holds for all `Int` holds for the 64-bit values the program can see, and no
arithmetic is done on them by the code (only comparisons with constants).
Instants of type `time.Time` are embedded as `Int` positions on the clock.
-/

namespace Caduceus

/-! ## Health classifier -/

/-- The type `health.Stat`: a named counter of the health monitor.  The
constants of the source are string constants of this type. -/
structure Stat where
  name : String
deriving DecidableEq, Repr

def PayloadsOverZero : Stat := ⟨"PayloadsOverZero"⟩
def PayloadsOverHundred : Stat := ⟨"PayloadsOverHundred"⟩
def PayloadsOverThousand : Stat := ⟨"PayloadsOverThousand"⟩
def PayloadsOverTenThousand : Stat := ⟨"PayloadsOverTenThousand"⟩

/-- The counters kept by the health sink (`health.Stats`, a map from stat to
integer in which an absent key reads as zero). -/
abbrev Stats := Stat → Int

/-- The type `health.HealthFunc`, restricted to the events this file builds:
`Inc stat value` is the event returned by `health.Inc(stat, value)`. -/
inductive HealthFunc where
  | Inc (stat : Stat) (value : Int)
deriving DecidableEq, Repr

/-- Modelled from the spec: the effect of an increment event on the counters of
the health sink (`health.Inc` lives in webpa-common, outside this repository):
the named counter goes up by the value, every other counter is untouched. -/
def HealthFunc.apply : HealthFunc → Stats → Stats
  | .Inc stat value, stats => fun s => if s = stat then stats s + value else stats s

/-- Modelled from the spec: the health sink behind `CaduceusHealth`
(`health.Monitor`, outside this repository).  `stats` are its counters and
`sent` the events it has been sent, oldest first. -/
structure CaduceusHealth where
  stats : Stats
  sent : List HealthFunc

/-- Modelled from the spec: `Monitor.SendEvent` delivers one event to the sink,
which applies it to its counters. -/
def CaduceusHealth.SendEvent (ch : CaduceusHealth) (f : HealthFunc) : CaduceusHealth :=
  { stats := f.apply ch.stats, sent := ch.sent ++ [f] }

/-- The method `CaduceusHealth.IncrementBucket` (source lines 137-147). -/
def CaduceusHealth.IncrementBucket (ch : CaduceusHealth) (inSize : Int) : CaduceusHealth :=
  if inSize < 101 then
    ch.SendEvent (HealthFunc.Inc PayloadsOverZero 1)
  else if inSize < 1001 then
    ch.SendEvent (HealthFunc.Inc PayloadsOverHundred 1)
  else if inSize < 10001 then
    ch.SendEvent (HealthFunc.Inc PayloadsOverThousand 1)
  else
    ch.SendEvent (HealthFunc.Inc PayloadsOverTenThousand 1)

/-! ## Request, telemetry and the dispatch handler -/

/-- An instant (`time.Time`) as a position on the clock. -/
abbrev Time := Int

/-- The struct `CaduceusTelemetry` (source lines 85-94). -/
structure CaduceusTelemetry where
  RawPayloadSize : Int
  TimeReceived : Time
  TimeAccepted : Time
  TimeSentToOutbound : Time
  TimeOutboundAccepted : Time
  TimeSent : Time
  TimeResponded : Time
  Status : Int
deriving DecidableEq, Repr

/-- The struct `CaduceusRequest` (source lines 70-77).  Byte slices are lists
of byte values; the pointer `PayloadAsWrp` is nil (`none`) or the address of
a `wrp.Message`, which the handler never dereferences. -/
structure CaduceusRequest where
  RawPayload : List (Fin 256)
  PayloadAsWrp : Option Nat
  OutgoingPayload : List (Fin 256)
  ContentType : String
  TargetURL : String
  Telemetry : CaduceusTelemetry
deriving DecidableEq, Repr

/-- One record written through the handler's logger: the info-level record of
`HandleRequest` carries the worker id and a message. -/
structure LogRecord where
  workerID : Int
  msg : String
deriving DecidableEq, Repr

/-- The struct `CaduceusHandler` (source lines 113-117) with its collaborators
present (non-nil).  The sender (`SenderWrapper`, an interface declared
outside this file) is represented by the requests its `Queue` method has been
called with, oldest first; the logger by the records written to it; the
profiler, which `HandleRequest` never touches, by a handle. -/
structure CaduceusHandler where
  handlerProfiler : Nat
  senderWrapper : List CaduceusRequest
  logger : List LogRecord
deriving DecidableEq, Repr

/-- The method `CaduceusHandler.HandleRequest` (source lines 119-125).  The
argument `now` is the reading returned by `time.Now()`.  The request is a by-value
parameter: the stamp is written to the handler's own copy, which is then
passed to the sender. -/
def CaduceusHandler.HandleRequest (ch : CaduceusHandler) (now : Time) (workerID : Int)
    (inRequest : CaduceusRequest) : CaduceusHandler :=
  let inRequest : CaduceusRequest :=
    { inRequest with Telemetry := { inRequest.Telemetry with TimeSentToOutbound := now } }
  let ch : CaduceusHandler :=
    { ch with logger := ch.logger ++
        [{ workerID := workerID, msg := "Worker received a request, now passing to sender" }] }
  { ch with senderWrapper := ch.senderWrapper ++ [inRequest] }

/-! ## Worker pool -/

/-- A Go run-time panic; an unrecovered panic aborts the process. -/
inductive RuntimePanic where
  /-- The panic of `make(chan T, n)`: "makechan: size out of range". -/
  | makechanSizeOutOfRange
  /-- The call of a nil func value (nil dereference). -/
  | nilFuncCall
  /-- The panic raised by the body of a job. -/
  | jobPanicked
  /-- A method call on a nil interface value or a field read through a nil
  pointer: "invalid memory address or nil pointer dereference". -/
  | nilDereference
deriving DecidableEq, Repr

/-- A Go `error` value built by `errors.New(text)`. -/
structure GoError where
  text : String
deriving DecidableEq, Repr

/-- The struct `WorkerPoolFactory` (source lines 150-153). -/
structure WorkerPoolFactory where
  NumWorkers : Int
  QueueSize : Int
deriving DecidableEq, Repr

/-- Where a worker goroutine `for f := range jobs { f(id) }` stands. -/
inductive WorkerState (J : Type) where
  /-- About to receive from `jobs` (also the state of a goroutine just started). -/
  | ready
  /-- Blocked in the receive: the channel was empty when it tried. -/
  | parked
  /-- Has received `f`; the call `f(id)` has not returned yet. -/
  | running (f : J)
deriving DecidableEq, Repr

/-- One goroutine started by `New`: the `id` bound by `go func(id int) {...}(i)`
and its control state. -/
structure Worker (J : Type) where
  id : Int
  state : WorkerState J
deriving DecidableEq, Repr

/-- A Go channel of element type `J` (the run-time `hchan`): its capacity
`dataqsiz`, the buffered elements `buf` (oldest first), and `recvq`, the
goroutines blocked in a receive on it (longest-waiting first), named by their
position in the list of workers.  No goroutine ever blocks in a send on
`jobs` (the only send is the `select` with `default` of `Send`) and the
channel is never closed, so neither a send queue nor a closed flag is kept. -/
structure Chan (J : Type) where
  dataqsiz : Nat
  buf : List J
  recvq : List Nat
deriving DecidableEq, Repr

/-- The struct `WorkerPool` (source lines 176-178) together with the part of
the process it owns: the channel `jobs`, the worker goroutines started by
`New` (position `g` in the list is the goroutine started in iteration `g`),
and `calls`, the record of the calls `f(id)` that workers have completed,
oldest first.  The job type `J` stands for Go values of type
`func(workerID int)`; the pool stores and hands on jobs without looking into
them. -/
structure WorkerPool (J : Type) where
  jobs : Chan J
  workers : List (Worker J)
  calls : List (J × Int)
deriving DecidableEq, Repr

/-- The builtin `make(chan T, size)`: panics when the size is negative or
beyond what the run time can allocate (`maxElems` elements, a constant of the
platform), and otherwise returns an empty channel of that capacity. -/
def makechan {J : Type} (maxElems : Nat) (size : Int) : Except RuntimePanic (Chan J) :=
  if size < 0 ∨ (maxElems : Int) < size then
    .error .makechanSizeOutOfRange
  else
    .ok { dataqsiz := size.toNat, buf := [], recvq := [] }

/-- The method `WorkerPoolFactory.New` (source lines 155-171): make the channel,
then start one goroutine for each `i` with `0 <= i < NumWorkers`, passing `i`
as its `id`. -/
def WorkerPoolFactory.New {J : Type} (maxElems : Nat) (wpf : WorkerPoolFactory) :
    Except RuntimePanic (WorkerPool J) :=
  match makechan maxElems wpf.QueueSize with
  | .error p => .error p
  | .ok jobs =>
    .ok { jobs := jobs
          workers := (List.range wpf.NumWorkers.toNat).map
            (fun (i : Nat) => { id := (i : Int), state := WorkerState.ready })
          calls := [] }

/-- A direct hand-off: goroutine `g`, blocked in its receive, is given `f` and
made runnable; it goes on to call `f(id)`. -/
def wake {J : Type} (ws : List (Worker J)) (g : Nat) (f : J) : List (Worker J) :=
  match ws[g]? with
  | some w => ws.set g { w with state := WorkerState.running f }
  | none => ws

/-- The method `WorkerPool.Send` (source lines 180-187).  The `select` with a
`default` case is a non-blocking channel send: if a goroutine is blocked in a
receive the value is handed to the longest-waiting one; otherwise, if the
buffer has room, the value is appended to it; otherwise the send cannot
proceed and the `default` case runs.  Returns the Go `error` (`none` is nil)
and the pool afterwards. -/
def WorkerPool.Send {J : Type} (wp : WorkerPool J) (inFunc : J) :
    Option GoError × WorkerPool J :=
  match wp.jobs.recvq with
  | g :: rest =>
    (none, { wp with jobs := { wp.jobs with recvq := rest }
                     workers := wake wp.workers g inFunc })
  | [] =>
    if wp.jobs.buf.length < wp.jobs.dataqsiz then
      (none, { wp with jobs := { wp.jobs with buf := wp.jobs.buf ++ [inFunc] } })
    else
      (some { text := "Worker pool channel full." }, wp)

/-- One turn of the worker goroutine at position `g` (source lines 159-163),
where `call f id` is the outcome of the Go call `f(id)`:
* `ready`: the receive of `range jobs`; takes the oldest buffered job if there
  is one, and otherwise blocks, joining the channel's receive queue;
* `parked`: the goroutine is blocked, nothing happens;
* `running f`: the call `f(id)` completes and is recorded, or panics, which
  aborts the process.
A position that names no goroutine does nothing. -/
def WorkerPool.work {J : Type} (call : J → Int → Except RuntimePanic Unit)
    (wp : WorkerPool J) (g : Nat) : Except RuntimePanic (WorkerPool J) :=
  match wp.workers[g]? with
  | none => .ok wp
  | some w =>
    match w.state with
    | .ready =>
      match wp.jobs.buf with
      | f :: rest =>
        .ok { wp with jobs := { wp.jobs with buf := rest }
                      workers := wp.workers.set g { w with state := WorkerState.running f } }
      | [] =>
        .ok { wp with jobs := { wp.jobs with recvq := wp.jobs.recvq ++ [g] }
                      workers := wp.workers.set g { w with state := WorkerState.parked } }
    | .parked => .ok wp
    | .running f =>
      match call f w.id with
      | .error p => .error p
      | .ok _ =>
        .ok { wp with workers := wp.workers.set g { w with state := WorkerState.ready }
                      calls := wp.calls ++ [(f, w.id)] }

/-- What can happen to a pool: a caller invokes `Send f`, or the scheduler
runs the worker goroutine at position `g` for one turn. -/
inductive Action (J : Type) where
  | send (f : J)
  | work (g : Nat)
deriving DecidableEq, Repr

/-- The pool after one action, or the panic that aborted the process. -/
def WorkerPool.step {J : Type} (call : J → Int → Except RuntimePanic Unit)
    (wp : WorkerPool J) : Action J → Except RuntimePanic (WorkerPool J)
  | .send f => .ok (wp.Send f).2
  | .work g => wp.work call g

/-- The pool after a finite sequence of actions, or the panic that ended it. -/
def WorkerPool.run {J : Type} (call : J → Int → Except RuntimePanic Unit) :
    WorkerPool J → List (Action J) → Except RuntimePanic (WorkerPool J)
  | wp, [] => .ok wp
  | wp, a :: acts =>
    match wp.step call a with
    | .error p => .error p
    | .ok wp1 => WorkerPool.run call wp1 acts

/-- The results of calling `Send` on each job of a list in turn, with no
worker running in between, and the pool afterwards. -/
def WorkerPool.sendAll {J : Type} : WorkerPool J → List J → List (Option GoError) × WorkerPool J
  | wp, [] => ([], wp)
  | wp, f :: fs =>
    let r := wp.Send f
    let rs := WorkerPool.sendAll r.2 fs
    (r.1 :: rs.1, rs.2)

/-- The job a worker holds, if it is in the middle of one. -/
def Worker.held {J : Type} (w : Worker J) : List J :=
  match w.state with
  | .running f => [f]
  | _ => []

/-- The jobs held by the workers of a list, in the order of the workers. -/
def heldJobs {J : Type} (ws : List (Worker J)) : List J :=
  (ws.map Worker.held).flatten

/-- The jobs the pool has accepted and not yet finished calling: those held by
workers and those waiting in the buffer. -/
def WorkerPool.pending {J : Type} (wp : WorkerPool J) : List J :=
  heldJobs wp.workers ++ wp.jobs.buf

/-- The job an action gets accepted: `Send f` that returns nil gets `f`
accepted; a refused `Send` and a worker turn get nothing accepted. -/
def WorkerPool.acceptedAt {J : Type} (wp : WorkerPool J) : Action J → List J
  | .send f => if (wp.Send f).1 = none then [f] else []
  | .work _ => []

/-- The jobs that `Send` accepted (returned nil for) during the first `t` steps
of a run `st` driven by the schedule `sched`, in the order of acceptance. -/
def acceptedBy {J : Type} (sched : Nat → Action J) (st : Nat → WorkerPool J) : Nat → List J
  | 0 => []
  | t + 1 => acceptedBy sched st t ++ (st t).acceptedAt (sched t)

/-- A schedule is fair to `numWorkers` workers when each of them is given a
turn again and again.  A turn of a worker that is inside a call `f(id)` is the
return of that call, so a fair schedule also says that every call returns. -/
def Fair {J : Type} (numWorkers : Nat) (sched : Nat → Action J) : Prop :=
  ∀ g, g < numWorkers → ∀ n, ∃ m, n ≤ m ∧ sched m = Action.work g

/-- A Go value of type `func(workerID int)`: the nil func, or a closure whose
body, given the worker id, returns or panics. -/
inductive GoFunc where
  | nil
  | closure (body : Int → Bool)

/-- The Go call `f(id)` of line 161: calling the nil func panics; calling a
closure runs its body, which returns (`true`) or panics (`false`). -/
def GoFunc.call : GoFunc → Int → Except RuntimePanic Unit
  | .nil, _ => .error .nilFuncCall
  | .closure body, id => if body id then .ok () else .error .jobPanicked

/-- Consistency of a pool state: the buffer is within capacity; a goroutine
waits in the receive queue only while the buffer is empty; the receive queue
lists, without repetition, exactly the parked workers; every worker carries
its position as `id`; every recorded call was made with the id of a worker. -/
structure WorkerPool.WF {J : Type} (wp : WorkerPool J) : Prop where
  room : wp.jobs.buf.length ≤ wp.jobs.dataqsiz
  idle : wp.jobs.recvq ≠ [] → wp.jobs.buf = []
  nodup : wp.jobs.recvq.Nodup
  parked : ∀ g : Nat, g ∈ wp.jobs.recvq ↔
    ∃ w : Worker J, wp.workers[g]? = some w ∧ w.state = WorkerState.parked
  ids : ∀ (g : Nat) (w : Worker J), wp.workers[g]? = some w → w.id = (g : Int)
  callIds : ∀ c ∈ wp.calls, 0 ≤ c.2 ∧ c.2 < (wp.workers.length : Int)

/-- The worker goroutine at position `g` exists and is in control state `s`. -/
def WorkerPool.inState {J : Type} (wp : WorkerPool J) (g : Nat) (s : WorkerState J) : Prop :=
  ∃ w : Worker J, wp.workers[g]? = some w ∧ w.state = s

/-- The job `f` waits in the buffer with at most `k` jobs ahead of it. -/
def WorkerPool.queuedWithin {J : Type} (wp : WorkerPool J) (f : J) (k : Nat) : Prop :=
  ∃ pre post : List J, wp.jobs.buf = pre ++ f :: post ∧ pre.length ≤ k

/-- A schedule for a pool with one worker: one `Send 7`, then the worker's turns. -/
def demoSched : Nat → Action Nat
  | 0 => Action.send 7
  | _ + 1 => Action.work 0

/-- The run of the pool with one worker and capacity 1 under `demoSched`: the
job is queued, received, called, and the worker then blocks for good. -/
def demoRun : Nat → WorkerPool Nat
  | 0 => { jobs := { dataqsiz := 1, buf := [], recvq := [] }
           workers := [{ id := 0, state := WorkerState.ready }], calls := [] }
  | 1 => { jobs := { dataqsiz := 1, buf := [7], recvq := [] }
           workers := [{ id := 0, state := WorkerState.ready }], calls := [] }
  | 2 => { jobs := { dataqsiz := 1, buf := [], recvq := [] }
           workers := [{ id := 0, state := WorkerState.running 7 }], calls := [] }
  | 3 => { jobs := { dataqsiz := 1, buf := [], recvq := [] }
           workers := [{ id := 0, state := WorkerState.ready }], calls := [(7, 0)] }
  | _ + 4 => { jobs := { dataqsiz := 1, buf := [], recvq := [0] }
               workers := [{ id := 0, state := WorkerState.parked }], calls := [(7, 0)] }

/-! ## Nil receivers and collaborators -/

/-- The struct `CaduceusHandler` (source lines 113-117) as Go holds it: the
embedded logger and the sender are interface values, each nil (`none`) or
present. -/
structure HandlerValue where
  handlerProfiler : Nat
  senderWrapper : Option (List CaduceusRequest)
  logger : Option (List LogRecord)
deriving DecidableEq, Repr

/-- The Go call `ch.HandleRequest(workerID, inRequest)` (source lines 119-125)
on a receiver `ch *CaduceusHandler` that is nil (`none`) or points to a handler
whose collaborators may be nil.  Line 122 calls `Log` through the embedded
logger and line 124 calls `Queue` on the sender; a method call on a nil
interface value, like a field read through a nil pointer, panics.  With
receiver, logger and sender present the call is `CaduceusHandler.HandleRequest`. -/
def HandleRequestCall (ch : Option HandlerValue) (now : Time) (workerID : Int)
    (inRequest : CaduceusRequest) : Except RuntimePanic CaduceusHandler :=
  match ch with
  | none => .error .nilDereference
  | some h =>
    match h.logger with
    | none => .error .nilDereference
    | some lg =>
      match h.senderWrapper with
      | none => .error .nilDereference
      | some sw =>
        .ok (CaduceusHandler.HandleRequest
          { handlerProfiler := h.handlerProfiler, senderWrapper := sw, logger := lg }
          now workerID inRequest)

/-- The struct `CaduceusHealth` (source lines 133-135) as Go holds it: the
embedded `health.Monitor` is an interface value, nil (`none`) or present. -/
structure HealthValue where
  Monitor : Option CaduceusHealth

/-- The Go call `ch.IncrementBucket(inSize)` (source lines 137-147) on a
receiver `ch *CaduceusHealth` that is nil (`none`) or points to a value whose
monitor may be nil: every branch calls `SendEvent` through the embedded
monitor, which panics when the receiver or the monitor is nil.  With both
present the call is `CaduceusHealth.IncrementBucket`. -/
def IncrementBucketCall (ch : Option HealthValue) (inSize : Int) :
    Except RuntimePanic CaduceusHealth :=
  match ch with
  | none => .error .nilDereference
  | some h =>
    match h.Monitor with
    | none => .error .nilDereference
    | some m => .ok (m.IncrementBucket inSize)

/-- The Go call `wp.Send(inFunc)` on a receiver `wp *WorkerPool` that is nil
(`none`) or points to a pool: line 182 reads `wp.jobs`, which panics through a
nil pointer.  On a pool the call is `WorkerPool.Send`. -/
def SendCall {J : Type} (wp : Option (WorkerPool J)) (inFunc : J) :
    Except RuntimePanic (Option GoError × WorkerPool J) :=
  match wp with
  | none => .error .nilDereference
  | some p => .ok (p.Send inFunc)

/-! ## The order in which jobs leave the queue -/

/-- The job the worker at position `g` took up in passing from `wp` to `wp1`:
the job it holds in `wp1`, if it held none in `wp`. -/
def WorkerPool.tookUp {J : Type} (wp wp1 : WorkerPool J) (g : Nat) : List J :=
  match wp.workers[g]?, wp1.workers[g]? with
  | some w, some w1 =>
    match w.held with
    | [] => w1.held
    | _ :: _ => []
  | _, _ => []

/-- The job that left the queue in a step from `wp` to `wp1`: the one the
worker whose turn it was took up.  A `Send` takes nothing off the queue. -/
def WorkerPool.dequeuedAt {J : Type} (wp wp1 : WorkerPool J) : Action J → List J
  | .work g => wp.tookUp wp1 g
  | .send _ => []

/-- The job that entered the queue in a step: that of a `Send` which returned
nil while no worker was blocked in a receive. -/
def WorkerPool.enqueuedAt {J : Type} (wp : WorkerPool J) : Action J → List J
  | .send f => if (wp.Send f).1 = none ∧ wp.jobs.recvq = [] then [f] else []
  | .work _ => []

/-- The jobs that left the queue along a run, in the order they left. -/
def WorkerPool.dequeued {J : Type} (call : J → Int → Except RuntimePanic Unit) :
    WorkerPool J → List (Action J) → List J
  | _, [] => []
  | wp, a :: acts =>
    match wp.step call a with
    | .error _ => []
    | .ok wp1 => wp.dequeuedAt wp1 a ++ WorkerPool.dequeued call wp1 acts

/-- The jobs that entered the queue along a run, in the order they entered. -/
def WorkerPool.enqueued {J : Type} (call : J → Int → Except RuntimePanic Unit) :
    WorkerPool J → List (Action J) → List J
  | _, [] => []
  | wp, a :: acts =>
    match wp.step call a with
    | .error _ => []
    | .ok wp1 => wp.enqueuedAt a ++ WorkerPool.enqueued call wp1 acts

/-- A request whose `TimeReceived` stamp (10) lies after the clock reading 5. -/
def lateRequest : CaduceusRequest :=
  { RawPayload := [], PayloadAsWrp := none, OutgoingPayload := [], ContentType := "",
    TargetURL := "",
    Telemetry := { RawPayloadSize := 0, TimeReceived := 10, TimeAccepted := 0,
                   TimeSentToOutbound := 0, TimeOutboundAccepted := 0, TimeSent := 0,
                   TimeResponded := 0, Status := 0 } }

/-! ## Health classifier: theorems -/

theorem SendEvent_sent (ch : CaduceusHealth) (f : HealthFunc) :
    (ch.SendEvent f).sent = ch.sent ++ [f] := rfl

theorem SendEvent_stats (ch : CaduceusHealth) (b : Stat) (v : Int) (s : Stat) :
    (ch.SendEvent (HealthFunc.Inc b v)).stats s = if s = b then ch.stats s + v else ch.stats s :=
  rfl

theorem buckets_nodup :
    [PayloadsOverZero, PayloadsOverHundred, PayloadsOverThousand, PayloadsOverTenThousand].Nodup := by
  decide

/-- The event `IncrementBucket` sends, as a function of the size. -/
theorem IncrementBucket_sent (ch : CaduceusHealth) (inSize : Int) :
    (ch.IncrementBucket inSize).sent = ch.sent ++
      [HealthFunc.Inc (if inSize < 101 then PayloadsOverZero
        else if inSize < 1001 then PayloadsOverHundred
        else if inSize < 10001 then PayloadsOverThousand
        else PayloadsOverTenThousand) 1] := by
  unfold CaduceusHealth.IncrementBucket
  split_ifs <;> rfl

theorem IncrementBucket_eq (ch : CaduceusHealth) (inSize : Int) :
    ch.IncrementBucket inSize = ch.SendEvent
      (HealthFunc.Inc (if inSize < 101 then PayloadsOverZero
        else if inSize < 1001 then PayloadsOverHundred
        else if inSize < 10001 then PayloadsOverThousand
        else PayloadsOverTenThousand) 1) := by
  unfold CaduceusHealth.IncrementBucket
  split_ifs <;> rfl

/-- C3: for every integer size, `IncrementBucket` sends its event for bucket
PayloadsOverZero iff size < 101, for PayloadsOverHundred iff 101 <= size < 1001,
for PayloadsOverThousand iff 1001 <= size < 10001 and for
PayloadsOverTenThousand iff size >= 10001; in particular 0, 100 and -5 go to
OverZero, 101 and 1000 to OverHundred, 1001 and 10000 to OverThousand and
10001 to OverTenThousand. -/
theorem IncrementBucket_classification (ch : CaduceusHealth) (inSize : Int) :
    ((ch.IncrementBucket inSize).sent = ch.sent ++ [HealthFunc.Inc PayloadsOverZero 1]
        ↔ inSize < 101) ∧
    ((ch.IncrementBucket inSize).sent = ch.sent ++ [HealthFunc.Inc PayloadsOverHundred 1]
        ↔ 101 ≤ inSize ∧ inSize < 1001) ∧
    ((ch.IncrementBucket inSize).sent = ch.sent ++ [HealthFunc.Inc PayloadsOverThousand 1]
        ↔ 1001 ≤ inSize ∧ inSize < 10001) ∧
    ((ch.IncrementBucket inSize).sent = ch.sent ++ [HealthFunc.Inc PayloadsOverTenThousand 1]
        ↔ 10001 ≤ inSize) ∧
    (ch.IncrementBucket 0).sent = ch.sent ++ [HealthFunc.Inc PayloadsOverZero 1] ∧
    (ch.IncrementBucket 100).sent = ch.sent ++ [HealthFunc.Inc PayloadsOverZero 1] ∧
    (ch.IncrementBucket (-5)).sent = ch.sent ++ [HealthFunc.Inc PayloadsOverZero 1] ∧
    (ch.IncrementBucket 101).sent = ch.sent ++ [HealthFunc.Inc PayloadsOverHundred 1] ∧
    (ch.IncrementBucket 1000).sent = ch.sent ++ [HealthFunc.Inc PayloadsOverHundred 1] ∧
    (ch.IncrementBucket 1001).sent = ch.sent ++ [HealthFunc.Inc PayloadsOverThousand 1] ∧
    (ch.IncrementBucket 10000).sent = ch.sent ++ [HealthFunc.Inc PayloadsOverThousand 1] ∧
    (ch.IncrementBucket 10001).sent = ch.sent ++ [HealthFunc.Inc PayloadsOverTenThousand 1] := by
  have h01 : PayloadsOverZero ≠ PayloadsOverHundred := by decide
  have h02 : PayloadsOverZero ≠ PayloadsOverThousand := by decide
  have h03 : PayloadsOverZero ≠ PayloadsOverTenThousand := by decide
  have h12 : PayloadsOverHundred ≠ PayloadsOverThousand := by decide
  have h13 : PayloadsOverHundred ≠ PayloadsOverTenThousand := by decide
  have h23 : PayloadsOverThousand ≠ PayloadsOverTenThousand := by decide
  refine ⟨?_, ?_, ?_, ?_, ?_, ?_, ?_, ?_, ?_, ?_, ?_, ?_⟩
  · rw [IncrementBucket_sent]
    simp only [List.append_cancel_left_eq, List.cons.injEq, and_true, HealthFunc.Inc.injEq]
    split_ifs <;> simp_all [Ne.symm]
  · rw [IncrementBucket_sent]
    simp only [List.append_cancel_left_eq, List.cons.injEq, and_true, HealthFunc.Inc.injEq]
    split_ifs <;> simp_all [Ne.symm]
  · rw [IncrementBucket_sent]
    simp only [List.append_cancel_left_eq, List.cons.injEq, and_true, HealthFunc.Inc.injEq]
    split_ifs <;> simp_all [Ne.symm]
    omega
  · rw [IncrementBucket_sent]
    simp only [List.append_cancel_left_eq, List.cons.injEq, and_true, HealthFunc.Inc.injEq]
    split_ifs <;> simp_all [Ne.symm] <;> omega
  all_goals rw [IncrementBucket_sent]; norm_num

/-- C4: for every size and every state of the counters, one call of
`IncrementBucket` sends exactly one event, an increment by 1 of one of the four
buckets; that bucket's counter goes up by exactly 1 and every other counter
(the other three buckets included, the four being distinct) is unchanged; a
second call with the same size sends the same event again, so that the same
bucket is up by 2 and nothing else has moved. -/
theorem IncrementBucket_exactly_one (ch : CaduceusHealth) (inSize : Int) :
    [PayloadsOverZero, PayloadsOverHundred, PayloadsOverThousand,
      PayloadsOverTenThousand].Nodup ∧
    ∃ b, b ∈ [PayloadsOverZero, PayloadsOverHundred, PayloadsOverThousand,
        PayloadsOverTenThousand] ∧
      (ch.IncrementBucket inSize).sent = ch.sent ++ [HealthFunc.Inc b 1] ∧
      (ch.IncrementBucket inSize).stats b = ch.stats b + 1 ∧
      (∀ s, s ≠ b → (ch.IncrementBucket inSize).stats s = ch.stats s) ∧
      ((ch.IncrementBucket inSize).IncrementBucket inSize).sent =
        ch.sent ++ [HealthFunc.Inc b 1, HealthFunc.Inc b 1] ∧
      ((ch.IncrementBucket inSize).IncrementBucket inSize).stats b = ch.stats b + 2 ∧
      (∀ s, s ≠ b → ((ch.IncrementBucket inSize).IncrementBucket inSize).stats s = ch.stats s) := by
  refine ⟨buckets_nodup, ?_⟩
  refine ⟨if inSize < 101 then PayloadsOverZero
        else if inSize < 1001 then PayloadsOverHundred
        else if inSize < 10001 then PayloadsOverThousand
        else PayloadsOverTenThousand, ?_, ?_, ?_, ?_, ?_, ?_, ?_⟩
  · split_ifs <;> simp
  · rw [IncrementBucket_sent]
  · rw [IncrementBucket_eq, SendEvent_stats]; simp
  · intro s hs
    rw [IncrementBucket_eq, SendEvent_stats, if_neg hs]
  · rw [IncrementBucket_sent, IncrementBucket_sent, List.append_assoc]; rfl
  · rw [IncrementBucket_eq, SendEvent_stats, IncrementBucket_eq, SendEvent_stats]
    simp only [if_true]; ring
  · intro s hs
    rw [IncrementBucket_eq, SendEvent_stats, IncrementBucket_eq, SendEvent_stats, if_neg hs,
      if_neg hs]

/-! ## Dispatch handler: theorems -/

/-- C5 as stated fails: with the clock at 5, a request received at 10 is passed
to the sender (once) stamped `TimeSentToOutbound = 5`, earlier than its
`TimeReceived`. -/
theorem HandleRequest_stamp_may_precede_received :
    ∃ r, (CaduceusHandler.HandleRequest
        { handlerProfiler := 0, senderWrapper := [], logger := [] } 5 0
        lateRequest).senderWrapper = [r] ∧
      r.Telemetry.TimeReceived = 10 ∧ r.Telemetry.TimeSentToOutbound = 5 ∧
      r.Telemetry.TimeSentToOutbound < r.Telemetry.TimeReceived :=
  ⟨_, rfl, rfl, rfl, by decide⟩

/-- C5, amended: for every worker id, request and clock reading, `HandleRequest`
calls the sender's `Queue` exactly once, with a request stamped
`TimeSentToOutbound = now`; the stamp is not earlier than the request's
`TimeReceived` exactly when `TimeReceived` is not later than the clock
reading. -/
theorem HandleRequest_stamps_now_and_forwards_once (ch : CaduceusHandler) (now : Time)
    (workerID : Int) (inRequest : CaduceusRequest) :
    ∃ r, (ch.HandleRequest now workerID inRequest).senderWrapper = ch.senderWrapper ++ [r] ∧
      r.Telemetry.TimeSentToOutbound = now ∧
      r.Telemetry.TimeReceived = inRequest.Telemetry.TimeReceived ∧
      (inRequest.Telemetry.TimeReceived ≤ r.Telemetry.TimeSentToOutbound ↔
        inRequest.Telemetry.TimeReceived ≤ now) :=
  ⟨_, rfl, rfl, rfl, Iff.rfl⟩

/-- C8: the request `HandleRequest` hands to the sender is the input request
with `Telemetry.TimeSentToOutbound` set to `now` and nothing else changed:
the payloads, content type, target URL and every other telemetry field are
those of the input; the sender receives that one request, the logger one
record, and the profiler is not touched. -/
theorem HandleRequest_writes_only_TimeSentToOutbound (ch : CaduceusHandler) (now : Time)
    (workerID : Int) (inRequest : CaduceusRequest) :
    ∃ r, (ch.HandleRequest now workerID inRequest).senderWrapper = ch.senderWrapper ++ [r] ∧
      r = { inRequest with
              Telemetry := { inRequest.Telemetry with TimeSentToOutbound := now } } ∧
      r.RawPayload = inRequest.RawPayload ∧
      r.PayloadAsWrp = inRequest.PayloadAsWrp ∧
      r.OutgoingPayload = inRequest.OutgoingPayload ∧
      r.ContentType = inRequest.ContentType ∧
      r.TargetURL = inRequest.TargetURL ∧
      r.Telemetry.RawPayloadSize = inRequest.Telemetry.RawPayloadSize ∧
      r.Telemetry.TimeReceived = inRequest.Telemetry.TimeReceived ∧
      r.Telemetry.TimeAccepted = inRequest.Telemetry.TimeAccepted ∧
      r.Telemetry.TimeOutboundAccepted = inRequest.Telemetry.TimeOutboundAccepted ∧
      r.Telemetry.TimeSent = inRequest.Telemetry.TimeSent ∧
      r.Telemetry.TimeResponded = inRequest.Telemetry.TimeResponded ∧
      r.Telemetry.Status = inRequest.Telemetry.Status ∧
      r.Telemetry.TimeSentToOutbound = now ∧
      (ch.HandleRequest now workerID inRequest).handlerProfiler = ch.handlerProfiler ∧
      (ch.HandleRequest now workerID inRequest).logger = ch.logger ++
        [{ workerID := workerID, msg := "Worker received a request, now passing to sender" }] :=
  ⟨_, rfl, rfl, rfl, rfl, rfl, rfl, rfl, rfl, rfl, rfl, rfl, rfl, rfl, rfl, rfl, rfl, rfl⟩

/-! ## Worker pool: consistency of reachable states -/

theorem makechan_ok {J : Type} {maxElems : Nat} {size : Int} {c : Chan J}
    (h : makechan maxElems size = .ok c) :
    0 ≤ size ∧ size ≤ maxElems ∧ c = { dataqsiz := size.toNat, buf := [], recvq := [] } := by
  unfold makechan at h
  split_ifs at h with hc
  cases h
  exact ⟨by omega, by omega, rfl⟩

theorem New_ok {J : Type} {maxElems : Nat} {wpf : WorkerPoolFactory} {wp : WorkerPool J}
    (h : wpf.New maxElems = .ok wp) :
    0 ≤ wpf.QueueSize ∧ wpf.QueueSize ≤ maxElems ∧
    wp = { jobs := { dataqsiz := wpf.QueueSize.toNat, buf := [], recvq := [] }
           workers := (List.range wpf.NumWorkers.toNat).map
             (fun (i : Nat) => { id := (i : Int), state := WorkerState.ready })
           calls := [] } := by
  unfold WorkerPoolFactory.New at h
  cases hm : (makechan maxElems wpf.QueueSize : Except RuntimePanic (Chan J)) with
  | error p => rw [hm] at h; cases h
  | ok c =>
    rw [hm] at h
    obtain ⟨h0, h1, hc⟩ := makechan_ok hm
    simp only [Except.ok.injEq] at h
    refine ⟨h0, h1, ?_⟩
    rw [← h, hc]

theorem New_WF {J : Type} {maxElems : Nat} {wpf : WorkerPoolFactory} {wp : WorkerPool J}
    (h : wpf.New maxElems = .ok wp) : wp.WF := by
  obtain ⟨_, _, rfl⟩ := New_ok h
  refine ⟨by simp, by simp, by simp, ?_, ?_, by simp⟩
  · intro g
    simp only [List.not_mem_nil, List.getElem?_map, Option.map_eq_some', false_iff, not_exists,
      not_and]
    rintro w ⟨i, _, rfl⟩
    simp
  · intro g w hw
    simp only [List.getElem?_map, Option.map_eq_some'] at hw
    obtain ⟨i, hi, rfl⟩ := hw
    have hg : g < (List.range wpf.NumWorkers.toNat).length := by
      by_contra hcon
      rw [List.getElem?_eq_none (by omega)] at hi
      cases hi
    rw [List.length_range] at hg
    rw [List.getElem?_range hg] at hi
    simp only [Option.some.injEq] at hi
    simp [hi]

theorem wake_getElem? {J : Type} (ws : List (Worker J)) (g : Nat) (f : J) (j : Nat) :
    (wake ws g f)[j]? =
      if g = j then (ws[j]?).map (fun w => { w with state := WorkerState.running f })
      else ws[j]? := by
  unfold wake
  cases h : ws[g]? with
  | none =>
    by_cases hgj : g = j
    · subst hgj; simp [h]
    · simp [hgj]
  | some w =>
    have hg : g < ws.length := by
      by_contra hcon
      rw [List.getElem?_eq_none (by omega)] at h
      cases h
    simp only [List.getElem?_set]
    by_cases hgj : g = j
    · subst hgj; simp [h, hg]
    · simp [hgj]

theorem wake_length {J : Type} (ws : List (Worker J)) (g : Nat) (f : J) :
    (wake ws g f).length = ws.length := by
  unfold wake
  cases ws[g]? <;> simp

theorem Send_WF {J : Type} {wp : WorkerPool J} (h : wp.WF) (f : J) : (wp.Send f).2.WF := by
  unfold WorkerPool.Send
  cases hq : wp.jobs.recvq with
  | nil =>
    simp only
    split_ifs with hroom
    · refine ⟨?_, ?_, ?_, ?_, h.ids, h.callIds⟩
      · simp only [List.length_append, List.length_singleton]; omega
      · intro hne; exact absurd hq hne
      · simp [hq]
      · intro g; have := h.parked g; rw [hq] at this; simpa [hq] using this
    · exact h
  | cons g rest =>
    have hnd := h.nodup
    rw [hq] at hnd
    have hgrest : g ∉ rest := (List.nodup_cons.mp hnd).1
    have hbuf : wp.jobs.buf = [] := h.idle (by rw [hq]; simp)
    refine ⟨?_, ?_, ?_, ?_, ?_, ?_⟩
    · simp [hbuf]
    · intro _; exact hbuf
    · exact (List.nodup_cons.mp hnd).2
    · intro j
      show j ∈ rest ↔ ∃ w : Worker J, (wake wp.workers g f)[j]? = some w ∧
        w.state = WorkerState.parked
      rw [wake_getElem?]
      by_cases hgj : g = j
      · subst hgj
        simp only [if_true, hgrest, false_iff, not_exists, not_and]
        intro w hw
        simp only [Option.map_eq_some'] at hw
        obtain ⟨w0, _, rfl⟩ := hw
        simp
      · simp only [hgj, if_false]
        rw [← h.parked j, hq]
        simp [Ne.symm hgj]
    · intro j w hw
      have hw2 : (wake wp.workers g f)[j]? = some w := hw
      rw [wake_getElem?] at hw2
      by_cases hgj : g = j
      · subst hgj
        simp only [if_true, Option.map_eq_some'] at hw2
        obtain ⟨w0, hw0, rfl⟩ := hw2
        exact h.ids g w0 hw0
      · simp only [hgj, if_false] at hw2
        exact h.ids j w hw2
    · intro c hc
      have := h.callIds c hc
      show 0 ≤ c.2 ∧ c.2 < ((wake wp.workers g f).length : Int)
      rw [wake_length]; exact this

theorem getElem?_lt {α : Type} {l : List α} {g : Nat} {a : α} (h : l[g]? = some a) :
    g < l.length := by
  by_contra hcon
  rw [List.getElem?_eq_none (by omega)] at h
  cases h

theorem work_WF {J : Type} {call : J → Int → Except RuntimePanic Unit} {wp wp1 : WorkerPool J}
    (h : wp.WF) {g : Nat} (hw : wp.work call g = .ok wp1) : wp1.WF := by
  unfold WorkerPool.work at hw
  cases hg : wp.workers[g]? with
  | none => rw [hg] at hw; cases hw; exact h
  | some w =>
    rw [hg] at hw
    have hlt : g < wp.workers.length := getElem?_lt hg
    cases hst : w.state with
    | parked => simp only [hst] at hw; cases hw; exact h
    | ready =>
      simp only [hst] at hw
      have hgq : g ∉ wp.jobs.recvq := by
        intro hmem
        obtain ⟨w1, hw1, hp⟩ := (h.parked g).mp hmem
        rw [hg] at hw1; cases hw1; rw [hst] at hp; cases hp
      cases hb : wp.jobs.buf with
      | nil =>
        rw [hb] at hw; cases hw
        refine ⟨?_, ?_, ?_, ?_, ?_, ?_⟩
        · simp
        · intro _; rfl
        · show (wp.jobs.recvq ++ [g]).Nodup
          rw [List.nodup_append]
          refine ⟨h.nodup, by simp, ?_⟩
          intro x hx hx2
          simp only [List.mem_singleton] at hx2
          subst hx2; exact hgq hx
        · intro j
          show j ∈ wp.jobs.recvq ++ [g] ↔ ∃ w1 : Worker J,
            (wp.workers.set g { w with state := WorkerState.parked })[j]? = some w1 ∧
              w1.state = WorkerState.parked
          rw [List.getElem?_set]
          by_cases hgj : g = j
          · subst hgj; simp [hlt]
          · simp only [hgj, if_false, List.mem_append, List.mem_singleton]
            rw [h.parked j]
            constructor
            · rintro (hx | hx)
              · exact hx
              · exact absurd hx.symm hgj
            · intro hx; exact Or.inl hx
        · intro j w1 hw1
          have hw2 : (wp.workers.set g { w with state := WorkerState.parked })[j]? = some w1 := hw1
          rw [List.getElem?_set] at hw2
          by_cases hgj : g = j
          · subst hgj
            simp only [if_true, hlt, Option.some.injEq] at hw2
            subst hw2
            exact h.ids g w hg
          · simp only [hgj, if_false] at hw2
            exact h.ids j w1 hw2
        · intro c hc
          have := h.callIds c hc
          show 0 ≤ c.2 ∧ c.2 < ((wp.workers.set g _).length : Int)
          rw [List.length_set]; exact this
      | cons f rest =>
        rw [hb] at hw; cases hw
        have hq : wp.jobs.recvq = [] := by
          by_contra hne
          have := h.idle hne
          rw [hb] at this; cases this
        refine ⟨?_, ?_, ?_, ?_, ?_, ?_⟩
        · have := h.room
          rw [hb] at this
          simp only [List.length_cons] at this
          show rest.length ≤ wp.jobs.dataqsiz
          omega
        · intro hne; exact absurd hq hne
        · exact h.nodup
        · intro j
          show j ∈ wp.jobs.recvq ↔ ∃ w1 : Worker J,
            (wp.workers.set g { w with state := WorkerState.running f })[j]? = some w1 ∧
              w1.state = WorkerState.parked
          rw [List.getElem?_set]
          by_cases hgj : g = j
          · subst hgj; simp [hlt, hq]
          · simp only [hgj, if_false]
            exact h.parked j
        · intro j w1 hw1
          have hw2 : (wp.workers.set g { w with state := WorkerState.running f })[j]? = some w1 :=
            hw1
          rw [List.getElem?_set] at hw2
          by_cases hgj : g = j
          · subst hgj
            simp only [if_true, hlt, Option.some.injEq] at hw2
            subst hw2
            exact h.ids g w hg
          · simp only [hgj, if_false] at hw2
            exact h.ids j w1 hw2
        · intro c hc
          have := h.callIds c hc
          show 0 ≤ c.2 ∧ c.2 < ((wp.workers.set g _).length : Int)
          rw [List.length_set]; exact this
    | running f =>
      simp only [hst] at hw
      cases hc : call f w.id with
      | error p => rw [hc] at hw; cases hw
      | ok u =>
        rw [hc] at hw; cases hw
        have hgq : g ∉ wp.jobs.recvq := by
          intro hmem
          obtain ⟨w1, hw1, hp⟩ := (h.parked g).mp hmem
          rw [hg] at hw1; cases hw1; rw [hst] at hp; cases hp
        refine ⟨h.room, h.idle, h.nodup, ?_, ?_, ?_⟩
        · intro j
          show j ∈ wp.jobs.recvq ↔ ∃ w1 : Worker J,
            (wp.workers.set g { w with state := WorkerState.ready })[j]? = some w1 ∧
              w1.state = WorkerState.parked
          rw [List.getElem?_set]
          by_cases hgj : g = j
          · subst hgj; simp [hlt, hgq]
          · simp only [hgj, if_false]
            exact h.parked j
        · intro j w1 hw1
          have hw2 : (wp.workers.set g { w with state := WorkerState.ready })[j]? = some w1 := hw1
          rw [List.getElem?_set] at hw2
          by_cases hgj : g = j
          · subst hgj
            simp only [if_true, hlt, Option.some.injEq] at hw2
            subst hw2
            exact h.ids g w hg
          · simp only [hgj, if_false] at hw2
            exact h.ids j w1 hw2
        · intro c hc
          show 0 ≤ c.2 ∧ c.2 < ((wp.workers.set g _).length : Int)
          rw [List.length_set]
          have hc2 : c ∈ wp.calls ++ [(f, w.id)] := hc
          rw [List.mem_append] at hc2
          rcases hc2 with hc2 | hc2
          · exact h.callIds c hc2
          · simp only [List.mem_singleton] at hc2
            subst hc2
            have := h.ids g w hg
            simp only [this]
            omega

theorem step_WF {J : Type} {call : J → Int → Except RuntimePanic Unit} {wp wp1 : WorkerPool J}
    (h : wp.WF) {a : Action J} (hs : wp.step call a = .ok wp1) : wp1.WF := by
  cases a with
  | send f =>
    simp only [WorkerPool.step, Except.ok.injEq] at hs
    subst hs; exact Send_WF h f
  | work g => exact work_WF h hs

theorem run_cons_ok {J : Type} {call : J → Int → Except RuntimePanic Unit} {wp st : WorkerPool J}
    {a : Action J} {acts : List (Action J)} (h : wp.run call (a :: acts) = .ok st) :
    ∃ wp1, wp.step call a = .ok wp1 ∧ wp1.run call acts = .ok st := by
  rw [WorkerPool.run] at h
  cases hs : wp.step call a with
  | error p => rw [hs] at h; cases h
  | ok wp1 => rw [hs] at h; exact ⟨wp1, rfl, h⟩

theorem run_WF {J : Type} {call : J → Int → Except RuntimePanic Unit} (acts : List (Action J)) :
    ∀ {wp st : WorkerPool J}, wp.WF → wp.run call acts = .ok st → st.WF := by
  induction acts with
  | nil => intro wp st h hr; simp only [WorkerPool.run, Except.ok.injEq] at hr; subst hr; exact h
  | cons a acts ih =>
    intro wp st h hr
    obtain ⟨wp1, hs, hr1⟩ := run_cons_ok hr
    exact ih (step_WF h hs) hr1

theorem Send_dataqsiz {J : Type} (wp : WorkerPool J) (f : J) :
    (wp.Send f).2.jobs.dataqsiz = wp.jobs.dataqsiz ∧
    (wp.Send f).2.workers.length = wp.workers.length := by
  unfold WorkerPool.Send
  cases wp.jobs.recvq with
  | nil => simp only; split_ifs <;> simp
  | cons g rest => simp [wake_length]

theorem work_dataqsiz {J : Type} {call : J → Int → Except RuntimePanic Unit}
    {wp wp1 : WorkerPool J} {g : Nat} (hw : wp.work call g = .ok wp1) :
    wp1.jobs.dataqsiz = wp.jobs.dataqsiz ∧ wp1.workers.length = wp.workers.length := by
  unfold WorkerPool.work at hw
  cases hg : wp.workers[g]? with
  | none => rw [hg] at hw; cases hw; exact ⟨rfl, rfl⟩
  | some w =>
    rw [hg] at hw
    cases hst : w.state with
    | parked => simp only [hst] at hw; cases hw; exact ⟨rfl, rfl⟩
    | ready =>
      simp only [hst] at hw
      cases hb : wp.jobs.buf with
      | nil => rw [hb] at hw; cases hw; simp
      | cons f rest => rw [hb] at hw; cases hw; simp
    | running f =>
      simp only [hst] at hw
      cases hc : call f w.id with
      | error p => rw [hc] at hw; cases hw
      | ok u => rw [hc] at hw; cases hw; simp

theorem run_dataqsiz {J : Type} {call : J → Int → Except RuntimePanic Unit}
    (acts : List (Action J)) :
    ∀ {wp st : WorkerPool J}, wp.run call acts = .ok st →
      st.jobs.dataqsiz = wp.jobs.dataqsiz ∧ st.workers.length = wp.workers.length := by
  induction acts with
  | nil =>
    intro wp st hr
    simp only [WorkerPool.run, Except.ok.injEq] at hr
    subst hr; exact ⟨rfl, rfl⟩
  | cons a acts ih =>
    intro wp st hr
    obtain ⟨wp1, hs, hr1⟩ := run_cons_ok hr
    have h1 := ih hr1
    cases a with
    | send f =>
      simp only [WorkerPool.step, Except.ok.injEq] at hs
      subst hs
      have h2 := Send_dataqsiz wp f
      exact ⟨h1.1.trans h2.1, h1.2.trans h2.2⟩
    | work g =>
      have h2 := work_dataqsiz hs
      exact ⟨h1.1.trans h2.1, h1.2.trans h2.2⟩

theorem Send_fst {J : Type} (wp : WorkerPool J) (f : J) :
    (wp.Send f).1 =
      if wp.jobs.recvq ≠ [] ∨ wp.jobs.buf.length < wp.jobs.dataqsiz then none
      else some { text := "Worker pool channel full." } := by
  unfold WorkerPool.Send
  cases wp.jobs.recvq with
  | nil =>
    by_cases hlt : wp.jobs.buf.length < wp.jobs.dataqsiz
    · simp [hlt]
    · simp [hlt]
  | cons g rest => simp

/-! ## Worker pool: admission -/

/-- C1 as stated fails for capacity 0: in the pool made by `New` with one
worker and `QueueSize = 0`, once the worker has blocked in its receive, `Send`
returns nil although the queue has no slot at all (capacity 0, nothing
buffered). -/
theorem Send_accepts_with_no_free_slot :
    ∃ wp0 wp : WorkerPool Nat,
      WorkerPoolFactory.New 16 { NumWorkers := 1, QueueSize := 0 } = .ok wp0 ∧
      wp0.work (fun _ _ => .ok ()) 0 = .ok wp ∧
      (wp.Send 7).1 = none ∧
      wp.jobs.dataqsiz = 0 ∧ wp.jobs.buf = [] ∧
      ¬ (wp.jobs.buf.length < wp.jobs.dataqsiz) :=
  ⟨_, _, rfl, rfl, rfl, rfl, rfl, by decide⟩

/-- C1, amended: in every state `wp` of a pool made by `New` (whatever the
capacity, the number of workers and the actions taken since), `Send` returns
at once, and it returns nil iff a queue slot is free or the capacity is 0 and
a worker is blocked waiting to receive; otherwise it returns the error
"Worker pool channel full."; for a capacity of at least 1 this is: nil iff a
slot is free.  The error is returned only when no slot is free. -/
theorem Send_nil_iff_slot_free_or_receiver_waiting {J : Type}
    (call : J → Int → Except RuntimePanic Unit) (maxElems : Nat) (wpf : WorkerPoolFactory)
    (wp0 wp : WorkerPool J) (acts : List (Action J)) (f : J)
    (hnew : wpf.New maxElems = .ok wp0) (hrun : wp0.run call acts = .ok wp) :
    ((wp.Send f).1 = none ↔
      wp.jobs.buf.length < wp.jobs.dataqsiz ∨ (wp.jobs.dataqsiz = 0 ∧ wp.jobs.recvq ≠ [])) ∧
    ((wp.Send f).1 = some { text := "Worker pool channel full." } ↔
      ¬ (wp.jobs.buf.length < wp.jobs.dataqsiz ∨
          (wp.jobs.dataqsiz = 0 ∧ wp.jobs.recvq ≠ []))) ∧
    ((wp.Send f).1 = none ∨ (wp.Send f).1 = some { text := "Worker pool channel full." }) ∧
    ((wp.Send f).1 = some { text := "Worker pool channel full." } ↔
      (wp.Send f).1 ≠ none) ∧
    (wpf.QueueSize = 0 ∨
      ((wp.Send f).1 = none ↔ wp.jobs.buf.length < wp.jobs.dataqsiz)) ∧
    wp.jobs.dataqsiz = wpf.QueueSize.toNat := by
  have hwf : wp.WF := run_WF acts (New_WF hnew) hrun
  have hcap : wp.jobs.dataqsiz = wpf.QueueSize.toNat := by
    rw [(run_dataqsiz acts hrun).1]
    obtain ⟨_, _, rfl⟩ := New_ok hnew
    rfl
  have hq0 := (New_ok hnew).1
  have key : (wp.jobs.recvq ≠ [] ∨ wp.jobs.buf.length < wp.jobs.dataqsiz) ↔
      (wp.jobs.buf.length < wp.jobs.dataqsiz ∨
        (wp.jobs.dataqsiz = 0 ∧ wp.jobs.recvq ≠ [])) := by
    constructor
    · rintro (hne | hlt)
      · have hb := hwf.idle hne
        by_cases hz : wp.jobs.dataqsiz = 0
        · exact Or.inr ⟨hz, hne⟩
        · left; rw [hb]; simp only [List.length_nil]; omega
      · exact Or.inl hlt
    · rintro (hlt | ⟨_, hne⟩)
      · exact Or.inr hlt
      · exact Or.inl hne
  by_cases hc : wp.jobs.recvq ≠ [] ∨ wp.jobs.buf.length < wp.jobs.dataqsiz
  · have hres : (wp.Send f).1 = none := by rw [Send_fst, if_pos hc]
    have hc2 := key.mp hc
    rw [hres]
    refine ⟨⟨fun _ => hc2, fun _ => rfl⟩, ⟨(fun h => nomatch h), fun h => absurd hc2 h⟩,
      Or.inl rfl, ⟨(fun h => nomatch h), fun h => absurd rfl h⟩, ?_, hcap⟩
    by_cases hz : wpf.QueueSize = 0
    · exact Or.inl hz
    · right
      refine ⟨fun _ => ?_, fun _ => rfl⟩
      rcases hc2 with hlt | ⟨hz2, _⟩
      · exact hlt
      · rw [hcap] at hz2; omega
  · have hres : (wp.Send f).1 = some { text := "Worker pool channel full." } := by
      rw [Send_fst, if_neg hc]
    have hc2 : ¬ (wp.jobs.buf.length < wp.jobs.dataqsiz ∨
        (wp.jobs.dataqsiz = 0 ∧ wp.jobs.recvq ≠ [])) := fun h => hc (key.mpr h)
    rw [hres]
    refine ⟨⟨(fun h => nomatch h), fun h => absurd h hc2⟩, ⟨fun _ => hc2, fun _ => rfl⟩,
      Or.inr rfl, ⟨fun _ => (fun h => nomatch h), fun _ => rfl⟩, ?_, hcap⟩
    right
    exact ⟨(fun h => nomatch h), fun hlt => absurd (Or.inl hlt) hc2⟩

/-- C7 as stated fails: in the pool made by `New` with one worker and
`QueueSize = 0`, once the worker has blocked in its receive, `Send 7` succeeds
and leaves the queue empty, not equal to the previous queue with the job
appended: the job went straight to the waiting worker. -/
theorem Send_success_need_not_append :
    ∃ wp0 wp : WorkerPool Nat,
      WorkerPoolFactory.New 16 { NumWorkers := 1, QueueSize := 0 } = .ok wp0 ∧
      wp0.work (fun _ _ => .ok ()) 0 = .ok wp ∧
      (wp.Send 7).1 = none ∧
      (wp.Send 7).2.jobs.buf = [] ∧
      (wp.Send 7).2.jobs.buf ≠ wp.jobs.buf ++ [7] ∧
      (wp.Send 7).2.workers = [{ id := 0, state := WorkerState.running 7 }] :=
  ⟨_, _, rfl, rfl, rfl, rfl, by decide, rfl⟩

/-- C10: in every state reached from a pool made by `New` with queue capacity C
through any sequence of `Send` calls and worker turns, at most C jobs are
queued and the capacity is still C. -/
theorem queue_never_exceeds_capacity {J : Type}
    (call : J → Int → Except RuntimePanic Unit) (maxElems : Nat) (wpf : WorkerPoolFactory)
    (wp0 st : WorkerPool J) (acts : List (Action J))
    (hnew : wpf.New maxElems = .ok wp0) (hrun : wp0.run call acts = .ok st) :
    st.jobs.buf.length ≤ wpf.QueueSize.toNat ∧
    st.jobs.dataqsiz = wpf.QueueSize.toNat ∧
    wp0.jobs.dataqsiz = wpf.QueueSize.toNat ∧
    (wpf.QueueSize.toNat : Int) = wpf.QueueSize := by
  have hwf : st.WF := run_WF acts (New_WF hnew) hrun
  have hcap0 : wp0.jobs.dataqsiz = wpf.QueueSize.toNat := by
    obtain ⟨_, _, rfl⟩ := New_ok hnew
    rfl
  have hcap : st.jobs.dataqsiz = wpf.QueueSize.toNat := by
    rw [(run_dataqsiz acts hrun).1, hcap0]
  have hq0 := (New_ok hnew).1
  refine ⟨?_, hcap, hcap0, ?_⟩
  · rw [← hcap]; exact hwf.room
  · omega

/-! ## Panics -/

theorem GoFunc_call_ok_iff (f : GoFunc) (id : Int) :
    f.call id = .ok () ↔ ∃ body, f = GoFunc.closure body ∧ body id = true := by
  cases f with
  | nil => simp [GoFunc.call]
  | closure body =>
    by_cases hb : body id = true
    · simp [GoFunc.call, hb]
    · simp [GoFunc.call, hb]

theorem New_ok_iff {J : Type} (maxElems : Nat) (wpf : WorkerPoolFactory) :
    (∃ wp : WorkerPool J, wpf.New maxElems = .ok wp) ↔
      0 ≤ wpf.QueueSize ∧ wpf.QueueSize ≤ maxElems := by
  constructor
  · rintro ⟨wp, h⟩
    exact ⟨(New_ok h).1, (New_ok h).2.1⟩
  · rintro ⟨h0, h1⟩
    have hc : ¬ (wpf.QueueSize < 0 ∨ (maxElems : Int) < wpf.QueueSize) := by omega
    refine ⟨{ jobs := { dataqsiz := wpf.QueueSize.toNat, buf := [], recvq := [] }
              workers := (List.range wpf.NumWorkers.toNat).map
                (fun (i : Nat) => { id := (i : Int), state := WorkerState.ready })
              calls := [] }, ?_⟩
    simp only [WorkerPoolFactory.New, makechan, if_neg hc]

theorem New_error_iff {J : Type} (maxElems : Nat) (wpf : WorkerPoolFactory) :
    (wpf.New maxElems : Except RuntimePanic (WorkerPool J)) = .error .makechanSizeOutOfRange ↔
      wpf.QueueSize < 0 ∨ (maxElems : Int) < wpf.QueueSize := by
  constructor
  · intro h
    by_contra hc
    simp only [WorkerPoolFactory.New, makechan, if_neg hc] at h
    cases h
  · intro hc
    simp only [WorkerPoolFactory.New, makechan, if_pos hc]

theorem work_ok_iff (wp : WorkerPool GoFunc) (g : Nat) :
    (∃ wp1, wp.work GoFunc.call g = .ok wp1) ↔
      ∀ w j, wp.workers[g]? = some w → w.state = WorkerState.running j →
        ∃ body, j = GoFunc.closure body ∧ body w.id = true := by
  constructor
  · rintro ⟨wp1, h⟩ w j hw hst
    unfold WorkerPool.work at h
    rw [hw] at h
    simp only [hst] at h
    cases hc : j.call w.id with
    | error p => rw [hc] at h; cases h
    | ok u => cases u; exact (GoFunc_call_ok_iff j w.id).mp hc
  · intro h
    unfold WorkerPool.work
    cases hg : wp.workers[g]? with
    | none => exact ⟨wp, rfl⟩
    | some w =>
      cases hst : w.state with
      | ready =>
        simp only [hst]
        cases wp.jobs.buf with
        | nil => exact ⟨_, rfl⟩
        | cons x rest => exact ⟨_, rfl⟩
      | parked => simp only [hst]; exact ⟨wp, rfl⟩
      | running j =>
        obtain ⟨body, rfl, hb⟩ := h w j hg hst
        have hc : (GoFunc.closure body).call w.id = .ok () :=
          (GoFunc_call_ok_iff _ _).mpr ⟨body, rfl, hb⟩
        simp only [hst, hc]
        exact ⟨_, rfl⟩

/-- C9 as stated fails: `New` with `QueueSize = -1` panics in `make`, and a nil
job that `Send` accepted panics the worker that calls it. -/
theorem New_panics_on_negative_QueueSize :
    (WorkerPoolFactory.New 16 { NumWorkers := 4, QueueSize := -1 } :
      Except RuntimePanic (WorkerPool GoFunc)) = .error .makechanSizeOutOfRange ∧
    ∃ wp0 : WorkerPool GoFunc,
      WorkerPoolFactory.New 16 { NumWorkers := 1, QueueSize := 1 } = .ok wp0 ∧
      (wp0.Send GoFunc.nil).1 = none ∧
      wp0.run GoFunc.call [Action.send GoFunc.nil, Action.work 0, Action.work 0] =
        .error .nilFuncCall :=
  ⟨rfl, _, rfl, rfl, rfl⟩

/-! ## Instances at concrete pools -/

/-- The admission theorem at a pool of capacity 1 with two workers after one
accepted `Send`: the queue is full, no worker waits, and `Send 6` is refused. -/
theorem Send_nil_iff_slot_free_or_receiver_waiting_witness :
    ∃ wp0 wp : WorkerPool Nat,
      WorkerPoolFactory.New 16 { NumWorkers := 2, QueueSize := 1 } = .ok wp0 ∧
      wp0.run (fun _ _ => .ok ()) [Action.send 5] = .ok wp ∧
      ((wp.Send 6).1 = none ↔
        wp.jobs.buf.length < wp.jobs.dataqsiz ∨
          (wp.jobs.dataqsiz = 0 ∧ wp.jobs.recvq ≠ [])) ∧
      ((wp.Send 6).1 = some { text := "Worker pool channel full." } ↔
        ¬ (wp.jobs.buf.length < wp.jobs.dataqsiz ∨
            (wp.jobs.dataqsiz = 0 ∧ wp.jobs.recvq ≠ []))) ∧
      ((wp.Send 6).1 = none ∨ (wp.Send 6).1 = some { text := "Worker pool channel full." }) ∧
      ((wp.Send 6).1 = some { text := "Worker pool channel full." } ↔
        (wp.Send 6).1 ≠ none) ∧
      ((1 : Int) = 0 ∨
        ((wp.Send 6).1 = none ↔ wp.jobs.buf.length < wp.jobs.dataqsiz)) ∧
      wp.jobs.dataqsiz = (1 : Int).toNat :=
  ⟨_, _, rfl, rfl,
    Send_nil_iff_slot_free_or_receiver_waiting (fun _ _ => .ok ()) 16
      { NumWorkers := 2, QueueSize := 1 } _ _ [Action.send 5] 6 rfl rfl⟩

/-- The capacity invariant at a pool of capacity 1 with one worker after a run
of sends and worker turns. -/
theorem queue_never_exceeds_capacity_witness :
    ∃ wp0 st : WorkerPool Nat,
      WorkerPoolFactory.New 16 { NumWorkers := 1, QueueSize := 1 } = .ok wp0 ∧
      wp0.run (fun _ _ => .ok ())
        [Action.send 1, Action.send 2, Action.work 0, Action.send 3, Action.work 0] = .ok st ∧
      st.jobs.buf.length ≤ (1 : Int).toNat ∧
      st.jobs.dataqsiz = (1 : Int).toNat ∧
      wp0.jobs.dataqsiz = (1 : Int).toNat ∧
      (((1 : Int).toNat : Nat) : Int) = 1 :=
  ⟨_, _, rfl, rfl,
    queue_never_exceeds_capacity (fun _ _ => .ok ()) 16
      { NumWorkers := 1, QueueSize := 1 } _ _
      [Action.send 1, Action.send 2, Action.work 0, Action.send 3, Action.work 0] rfl rfl⟩

/-! ## Worker pool: every accepted job is accounted for -/

theorem heldJobs_cons {J : Type} (w : Worker J) (ws : List (Worker J)) :
    heldJobs (w :: ws) = w.held ++ heldJobs ws := by
  simp [heldJobs]

theorem heldJobs_set {J : Type} (ws : List (Worker J)) :
    ∀ (g : Nat) (w w1 : Worker J), ws[g]? = some w →
      (heldJobs (ws.set g w1) ++ w.held).Perm (heldJobs ws ++ w1.held) := by
  induction ws with
  | nil => intro g w w1 h; simp at h
  | cons x xs ih =>
    intro g w w1 h
    cases g with
    | zero =>
      simp only [List.getElem?_cons_zero, Option.some.injEq] at h
      subst h
      simp only [List.set_cons_zero, heldJobs_cons]
      calc (w1.held ++ heldJobs xs ++ x.held).Perm (x.held ++ (w1.held ++ heldJobs xs)) :=
            List.perm_append_comm
        _ = (x.held ++ w1.held) ++ heldJobs xs := by rw [List.append_assoc]
        _ |>.Perm ((w1.held ++ x.held) ++ heldJobs xs) :=
            List.Perm.append_right _ List.perm_append_comm
        _ = w1.held ++ (x.held ++ heldJobs xs) := by rw [List.append_assoc]
        _ |>.Perm (x.held ++ heldJobs xs ++ w1.held) := List.perm_append_comm
    | succ g =>
      simp only [List.getElem?_cons_succ] at h
      simp only [List.set_cons_succ, heldJobs_cons, List.append_assoc]
      exact List.Perm.append_left _ (ih g w w1 h)

theorem Send_cases {J : Type} {wp : WorkerPool J} (hwf : wp.WF) (f : J) :
    (wp.jobs.recvq = [] ∧ wp.jobs.buf.length < wp.jobs.dataqsiz ∧
      wp.Send f = (none, { wp with jobs := { wp.jobs with buf := wp.jobs.buf ++ [f] } })) ∨
    (∃ g rest w, wp.jobs.recvq = g :: rest ∧ wp.jobs.buf = [] ∧
      wp.workers[g]? = some w ∧ w.state = WorkerState.parked ∧
      wp.Send f = (none, { wp with
        jobs := { wp.jobs with recvq := rest }
        workers := wp.workers.set g { w with state := WorkerState.running f } })) ∨
    (wp.jobs.recvq = [] ∧ wp.jobs.dataqsiz ≤ wp.jobs.buf.length ∧
      wp.Send f = (some { text := "Worker pool channel full." }, wp)) := by
  cases hq : wp.jobs.recvq with
  | nil =>
    by_cases hlt : wp.jobs.buf.length < wp.jobs.dataqsiz
    · left
      refine ⟨rfl, hlt, ?_⟩
      unfold WorkerPool.Send; rw [hq]; simp only [hlt, if_true]
    · right; right
      refine ⟨rfl, by omega, ?_⟩
      unfold WorkerPool.Send; rw [hq]; simp only [hlt, if_false]
  | cons g rest =>
    right; left
    obtain ⟨w, hw, hp⟩ := (hwf.parked g).mp (by rw [hq]; simp)
    have hb : wp.jobs.buf = [] := hwf.idle (by rw [hq]; simp)
    refine ⟨g, rest, w, rfl, hb, hw, hp, ?_⟩
    unfold WorkerPool.Send wake; rw [hq]; simp only [hw]

theorem Send_total {J : Type} {wp : WorkerPool J} (hwf : wp.WF) (f : J) :
    ((wp.Send f).2.calls.map Prod.fst ++ (wp.Send f).2.pending).Perm
      (wp.calls.map Prod.fst ++ wp.pending ++ (if (wp.Send f).1 = none then [f] else [])) := by
  rcases Send_cases hwf f with ⟨_, _, hs⟩ | ⟨g, rest, w, _, hb, hw, hp, hs⟩ | ⟨_, _, hs⟩
  · rw [hs]
    simp only [WorkerPool.pending, if_true, List.append_assoc]
    exact List.Perm.refl _
  · rw [hs]
    simp only [WorkerPool.pending, if_true, hb, List.append_nil, List.append_assoc]
    have h1 := heldJobs_set wp.workers g w { w with state := WorkerState.running f } hw
    have hw0 : w.held = [] := by simp [Worker.held, hp]
    have hw1 : ({ w with state := WorkerState.running f } : Worker J).held = [f] := by
      simp [Worker.held]
    rw [hw0, hw1, List.append_nil] at h1
    exact List.Perm.append_left _ h1
  · rw [hs]
    simp only [reduceCtorEq, if_false, List.append_nil]
    exact List.Perm.refl _

theorem work_total {J : Type} {call : J → Int → Except RuntimePanic Unit}
    {wp wp1 : WorkerPool J} {g : Nat} (hw : wp.work call g = .ok wp1) :
    (wp1.calls.map Prod.fst ++ wp1.pending).Perm (wp.calls.map Prod.fst ++ wp.pending) := by
  unfold WorkerPool.work at hw
  cases hg : wp.workers[g]? with
  | none => rw [hg] at hw; cases hw; exact List.Perm.refl _
  | some w =>
    rw [hg] at hw
    cases hst : w.state with
    | parked => simp only [hst] at hw; cases hw; exact List.Perm.refl _
    | ready =>
      simp only [hst] at hw
      have hw0 : w.held = [] := by simp [Worker.held, hst]
      cases hb : wp.jobs.buf with
      | nil =>
        rw [hb] at hw; cases hw
        have h1 := heldJobs_set wp.workers g w { w with state := WorkerState.parked } hg
        have hw1 : ({ w with state := WorkerState.parked } : Worker J).held = [] := by
          simp [Worker.held]
        rw [hw0, hw1, List.append_nil, List.append_nil] at h1
        simp only [WorkerPool.pending, hb, List.append_nil]
        exact List.Perm.append_left _ h1
      | cons x rest =>
        rw [hb] at hw; cases hw
        have h1 := heldJobs_set wp.workers g w { w with state := WorkerState.running x } hg
        have hw1 : ({ w with state := WorkerState.running x } : Worker J).held = [x] := by
          simp [Worker.held]
        rw [hw0, hw1, List.append_nil] at h1
        simp only [WorkerPool.pending, hb]
        refine List.Perm.append_left _ ?_
        have h2 := List.Perm.append_right rest h1
        simpa [List.append_assoc] using h2
    | running j =>
      simp only [hst] at hw
      cases hc : call j w.id with
      | error p => rw [hc] at hw; cases hw
      | ok u =>
        rw [hc] at hw; cases hw
        have h1 := heldJobs_set wp.workers g w { w with state := WorkerState.ready } hg
        have hw0 : w.held = [j] := by simp [Worker.held, hst]
        have hw1 : ({ w with state := WorkerState.ready } : Worker J).held = [] := by
          simp [Worker.held]
        rw [hw0, hw1, List.append_nil] at h1
        simp only [WorkerPool.pending, List.map_append, List.map_cons, List.map_nil,
          List.append_assoc]
        refine List.Perm.append_left _ ?_
        have h2 : ([j] ++ heldJobs (wp.workers.set g { w with state := WorkerState.ready })).Perm
            (heldJobs wp.workers) := List.perm_append_comm.trans h1
        exact List.Perm.append_right _ h2

/-! ## Worker pool: infinite runs -/

theorem inf_WF {J : Type} {call : J → Int → Except RuntimePanic Unit}
    {sched : Nat → Action J} {st : Nat → WorkerPool J} (h0 : (st 0).WF)
    (hrun : ∀ t, (st t).step call (sched t) = .ok (st (t + 1))) : ∀ t, (st t).WF := by
  intro t
  induction t with
  | zero => exact h0
  | succ t ih => exact step_WF ih (hrun t)

theorem step_dataqsiz {J : Type} {call : J → Int → Except RuntimePanic Unit}
    {wp wp1 : WorkerPool J} {a : Action J} (hs : wp.step call a = .ok wp1) :
    wp1.jobs.dataqsiz = wp.jobs.dataqsiz ∧ wp1.workers.length = wp.workers.length := by
  cases a with
  | send f =>
    simp only [WorkerPool.step, Except.ok.injEq] at hs
    subst hs; exact Send_dataqsiz wp f
  | work g => exact work_dataqsiz hs

theorem inf_length {J : Type} {call : J → Int → Except RuntimePanic Unit}
    {sched : Nat → Action J} {st : Nat → WorkerPool J}
    (hrun : ∀ t, (st t).step call (sched t) = .ok (st (t + 1))) :
    ∀ t, (st t).workers.length = (st 0).workers.length := by
  intro t
  induction t with
  | zero => rfl
  | succ t ih => rw [(step_dataqsiz (hrun t)).2, ih]

theorem heldJobs_ready {J : Type} (n : Nat) :
    heldJobs ((List.range n).map
      (fun (i : Nat) => ({ id := (i : Int), state := WorkerState.ready } : Worker J))) = [] := by
  simp only [heldJobs, List.map_map, List.flatten_eq_nil_iff, List.mem_map, List.mem_range,
    Function.comp_apply]
  rintro l ⟨i, _, rfl⟩
  rfl

theorem step_total {J : Type} {call : J → Int → Except RuntimePanic Unit}
    {wp wp1 : WorkerPool J} (hwf : wp.WF) {a : Action J} (hs : wp.step call a = .ok wp1) :
    (wp1.calls.map Prod.fst ++ wp1.pending).Perm
      (wp.calls.map Prod.fst ++ wp.pending ++ wp.acceptedAt a) := by
  cases a with
  | send f =>
    simp only [WorkerPool.step, Except.ok.injEq] at hs
    subst hs; exact Send_total hwf f
  | work g =>
    simp only [WorkerPool.acceptedAt, List.append_nil]
    exact work_total hs

theorem inf_total {J : Type} {call : J → Int → Except RuntimePanic Unit}
    {maxElems : Nat} {wpf : WorkerPoolFactory}
    {sched : Nat → Action J} {st : Nat → WorkerPool J}
    (hnew : wpf.New maxElems = .ok (st 0))
    (hrun : ∀ t, (st t).step call (sched t) = .ok (st (t + 1))) :
    ∀ t, (acceptedBy sched st t).Perm ((st t).calls.map Prod.fst ++ (st t).pending) := by
  have hwf := inf_WF (New_WF hnew) hrun
  intro t
  induction t with
  | zero =>
    obtain ⟨_, _, h⟩ := New_ok hnew
    rw [h]
    simp only [acceptedBy, WorkerPool.pending, heldJobs_ready, List.map_nil, List.append_nil]
    exact List.Perm.refl _
  | succ t ih =>
    have h1 := step_total (hwf t) (hrun t)
    simp only [acceptedBy]
    exact (List.Perm.append_right _ ih).trans h1.symm

theorem ids_of_WF {J : Type} {wp : WorkerPool J} (hwf : wp.WF) :
    wp.workers.map (fun w => w.id) =
      (List.range wp.workers.length).map (fun (i : Nat) => (i : Int)) := by
  apply List.ext_getElem?
  intro i
  simp only [List.getElem?_map]
  by_cases hi : i < wp.workers.length
  · rw [List.getElem?_range hi]
    obtain ⟨w, hw⟩ : ∃ w, wp.workers[i]? = some w := ⟨wp.workers[i], by simp [hi]⟩
    rw [hw]
    simp [hwf.ids i w hw]
  · rw [List.getElem?_eq_none (by omega), List.getElem?_eq_none (by simp; omega)]
    rfl

/-! ## Worker pool: progress of one job -/

theorem work_cases {J : Type} {call : J → Int → Except RuntimePanic Unit}
    {wp wp1 : WorkerPool J} {g : Nat} (hw : wp.work call g = .ok wp1) :
    (wp.workers[g]? = none ∧ wp1 = wp) ∨
    (∃ w, wp.workers[g]? = some w ∧ w.state = WorkerState.parked ∧ wp1 = wp) ∨
    (∃ w, wp.workers[g]? = some w ∧ w.state = WorkerState.ready ∧ wp.jobs.buf = [] ∧
      wp1 = { wp with
        jobs := { wp.jobs with recvq := wp.jobs.recvq ++ [g] }
        workers := wp.workers.set g { w with state := WorkerState.parked } }) ∨
    (∃ w x rest, wp.workers[g]? = some w ∧ w.state = WorkerState.ready ∧
      wp.jobs.buf = x :: rest ∧
      wp1 = { wp with
        jobs := { wp.jobs with buf := rest }
        workers := wp.workers.set g { w with state := WorkerState.running x } }) ∨
    (∃ w j, wp.workers[g]? = some w ∧ w.state = WorkerState.running j ∧
      wp1 = { wp with
        workers := wp.workers.set g { w with state := WorkerState.ready }
        calls := wp.calls ++ [(j, w.id)] }) := by
  unfold WorkerPool.work at hw
  cases hg : wp.workers[g]? with
  | none => rw [hg] at hw; cases hw; exact Or.inl ⟨rfl, rfl⟩
  | some w =>
    rw [hg] at hw
    cases hst : w.state with
    | parked =>
      simp only [hst] at hw; cases hw
      exact Or.inr (Or.inl ⟨w, rfl, hst, rfl⟩)
    | ready =>
      simp only [hst] at hw
      cases hb : wp.jobs.buf with
      | nil =>
        rw [hb] at hw; cases hw
        refine Or.inr (Or.inr (Or.inl ⟨w, rfl, hst, rfl, ?_⟩))
        simp only [hb]
      | cons x rest =>
        rw [hb] at hw; cases hw
        exact Or.inr (Or.inr (Or.inr (Or.inl ⟨w, x, rest, rfl, hst, rfl, rfl⟩)))
    | running j =>
      simp only [hst] at hw
      cases hc : call j w.id with
      | error p => rw [hc] at hw; cases hw
      | ok u =>
        rw [hc] at hw; cases hw
        exact Or.inr (Or.inr (Or.inr (Or.inr ⟨w, j, rfl, hst, rfl⟩)))

theorem work_other {J : Type} {call : J → Int → Except RuntimePanic Unit}
    {wp wp1 : WorkerPool J} {g : Nat} (hw : wp.work call g = .ok wp1) {i : Nat} (hi : g ≠ i) :
    wp1.workers[i]? = wp.workers[i]? := by
  rcases work_cases hw with ⟨_, rfl⟩ | ⟨w, _, _, rfl⟩ | ⟨w, _, _, _, rfl⟩ |
    ⟨w, x, rest, _, _, _, rfl⟩ | ⟨w, j, _, _, rfl⟩
  · rfl
  · rfl
  · exact List.getElem?_set_ne hi
  · exact List.getElem?_set_ne hi
  · exact List.getElem?_set_ne hi

theorem step_keeps_worker {J : Type} {call : J → Int → Except RuntimePanic Unit}
    {wp wp1 : WorkerPool J} (hwf : wp.WF) {a : Action J} (hs : wp.step call a = .ok wp1)
    {g : Nat} {w : Worker J} (ha : a ≠ Action.work g) (hg : wp.workers[g]? = some w)
    (hnp : w.state ≠ WorkerState.parked) : wp1.workers[g]? = some w := by
  cases a with
  | send f =>
    simp only [WorkerPool.step, Except.ok.injEq] at hs
    subst hs
    rcases Send_cases hwf f with ⟨_, _, h⟩ | ⟨g0, rest, w0, _, _, hw0, hp0, h⟩ | ⟨_, _, h⟩
    · rw [h]; exact hg
    · rw [h]
      have hne : g0 ≠ g := by
        rintro rfl
        rw [hg] at hw0; cases hw0
        exact hnp hp0
      show (wp.workers.set g0 _)[g]? = some w
      rw [List.getElem?_set_ne hne]; exact hg
    · rw [h]; exact hg
  | work g1 =>
    have hne : g1 ≠ g := fun h => ha (by rw [h])
    rw [work_other hs hne]; exact hg

theorem step_calls_mono {J : Type} {call : J → Int → Except RuntimePanic Unit}
    {wp wp1 : WorkerPool J} {a : Action J} (hs : wp.step call a = .ok wp1)
    {c : J × Int} (hc : c ∈ wp.calls) : c ∈ wp1.calls := by
  cases a with
  | send f =>
    simp only [WorkerPool.step, Except.ok.injEq] at hs
    subst hs
    unfold WorkerPool.Send
    cases wp.jobs.recvq with
    | nil => simp only; split_ifs <;> exact hc
    | cons g rest => exact hc
  | work g =>
    rcases work_cases hs with ⟨_, rfl⟩ | ⟨w, _, _, rfl⟩ | ⟨w, _, _, _, rfl⟩ |
      ⟨w, x, rest, _, _, _, rfl⟩ | ⟨w, j, _, _, rfl⟩
    · exact hc
    · exact hc
    · exact hc
    · exact hc
    · exact List.mem_append_left _ hc

theorem step_running_stable {J : Type} {call : J → Int → Except RuntimePanic Unit}
    {wp wp1 : WorkerPool J} (hwf : wp.WF) {a : Action J} (hs : wp.step call a = .ok wp1)
    {g : Nat} {j : J} (hr : wp.inState g (WorkerState.running j)) (ha : a ≠ Action.work g) :
    wp1.inState g (WorkerState.running j) := by
  obtain ⟨w, hw, hst⟩ := hr
  exact ⟨w, step_keeps_worker hwf hs ha hw (by rw [hst]; simp), hst⟩

theorem step_ready_stable {J : Type} {call : J → Int → Except RuntimePanic Unit}
    {wp wp1 : WorkerPool J} (hwf : wp.WF) {a : Action J} (hs : wp.step call a = .ok wp1)
    {g : Nat} (hr : wp.inState g WorkerState.ready) (ha : a ≠ Action.work g) :
    wp1.inState g WorkerState.ready := by
  obtain ⟨w, hw, hst⟩ := hr
  exact ⟨w, step_keeps_worker hwf hs ha hw (by rw [hst]; simp), hst⟩

theorem work_running_finish {J : Type} {call : J → Int → Except RuntimePanic Unit}
    {wp wp1 : WorkerPool J} {g : Nat} (hs : wp.work call g = .ok wp1) {j : J}
    (hr : wp.inState g (WorkerState.running j)) :
    (∃ id, (j, id) ∈ wp1.calls) ∧ wp1.inState g WorkerState.ready ∧
      wp1.jobs.buf = wp.jobs.buf := by
  obtain ⟨w0, hw0, hst0⟩ := hr
  have hlt := getElem?_lt hw0
  rcases work_cases hs with ⟨h, _⟩ | ⟨w, h, hst, _⟩ | ⟨w, h, hst, _, _⟩ |
    ⟨w, x, rest, h, hst, _, _⟩ | ⟨w, j1, h, hst, rfl⟩
  · rw [hw0] at h; cases h
  · rw [hw0] at h; cases h; rw [hst0] at hst; cases hst
  · rw [hw0] at h; cases h; rw [hst0] at hst; cases hst
  · rw [hw0] at h; cases h; rw [hst0] at hst; cases hst
  · rw [hw0] at h; cases h; rw [hst0] at hst; cases hst
    refine ⟨⟨w0.id, by simp⟩, ⟨{ w0 with state := WorkerState.ready }, ?_, rfl⟩, rfl⟩
    show (wp.workers.set g _)[g]? = _
    rw [List.getElem?_set]; simp [hlt]

theorem set_inState {J : Type} {ws : List (Worker J)} {g : Nat} {w : Worker J}
    (hg : ws[g]? = some w) (s : WorkerState J) :
    ∃ w1 : Worker J, (ws.set g { w with state := s })[g]? = some w1 ∧ w1.state = s := by
  refine ⟨{ w with state := s }, ?_, rfl⟩
  rw [List.getElem?_set]; simp [getElem?_lt hg]

theorem step_queued {J : Type} {call : J → Int → Except RuntimePanic Unit}
    {wp wp1 : WorkerPool J} (hwf : wp.WF) {a : Action J} (hs : wp.step call a = .ok wp1)
    {f : J} {k : Nat} (hq : wp.queuedWithin f k) :
    wp1.queuedWithin f k ∨ ∃ g, wp1.inState g (WorkerState.running f) := by
  obtain ⟨pre, post, hb, hk⟩ := hq
  cases a with
  | send x =>
    simp only [WorkerPool.step, Except.ok.injEq] at hs
    subst hs
    rcases Send_cases hwf x with ⟨_, _, h⟩ | ⟨g0, rest, w0, _, _, _, _, h⟩ | ⟨_, _, h⟩
    · left; rw [h]
      exact ⟨pre, post ++ [x], by simp [hb], hk⟩
    · left; rw [h]; exact ⟨pre, post, hb, hk⟩
    · left; rw [h]; exact ⟨pre, post, hb, hk⟩
  | work g =>
    rcases work_cases hs with ⟨_, rfl⟩ | ⟨w, _, _, rfl⟩ | ⟨w, _, _, _, rfl⟩ |
      ⟨w, x, rest, hw, _, hx, rfl⟩ | ⟨w, j, _, _, rfl⟩
    · exact Or.inl ⟨pre, post, hb, hk⟩
    · exact Or.inl ⟨pre, post, hb, hk⟩
    · exact Or.inl ⟨pre, post, hb, hk⟩
    · rw [hb] at hx
      cases pre with
      | nil =>
        simp only [List.nil_append, List.cons.injEq] at hx
        obtain ⟨rfl, _⟩ := hx
        exact Or.inr ⟨g, set_inState hw _⟩
      | cons y pre1 =>
        simp only [List.cons_append, List.cons.injEq] at hx
        obtain ⟨_, hrest⟩ := hx
        left
        refine ⟨pre1, post, hrest.symm, ?_⟩
        simp only [List.length_cons] at hk
        omega
    · exact Or.inl ⟨pre, post, hb, hk⟩

theorem work_receive {J : Type} {call : J → Int → Except RuntimePanic Unit}
    {wp wp1 : WorkerPool J} {g : Nat} (hs : wp.work call g = .ok wp1)
    {f : J} {k : Nat} (hq : wp.queuedWithin f k) (hr : wp.inState g WorkerState.ready) :
    (∃ g1, wp1.inState g1 (WorkerState.running f)) ∨ (1 ≤ k ∧ wp1.queuedWithin f (k - 1)) := by
  obtain ⟨pre, post, hb, hk⟩ := hq
  obtain ⟨w0, hw0, hst0⟩ := hr
  rcases work_cases hs with ⟨h, _⟩ | ⟨w, h, hst, _⟩ | ⟨w, h, hst, hnil, _⟩ |
    ⟨w, x, rest, hw, _, hx, rfl⟩ | ⟨w, j, h, hst, _⟩
  · rw [hw0] at h; cases h
  · rw [hw0] at h; cases h; rw [hst0] at hst; cases hst
  · rw [hb] at hnil; simp at hnil
  · rw [hb] at hx
    cases pre with
    | nil =>
      simp only [List.nil_append, List.cons.injEq] at hx
      obtain ⟨rfl, _⟩ := hx
      exact Or.inl ⟨g, set_inState hw _⟩
    | cons y pre1 =>
      simp only [List.cons_append, List.cons.injEq] at hx
      obtain ⟨_, hrest⟩ := hx
      simp only [List.length_cons] at hk
      right
      refine ⟨by omega, pre1, post, hrest.symm, by omega⟩
  · rw [hw0] at h; cases h; rw [hst0] at hst; cases hst

theorem queued_not_parked {J : Type} {wp : WorkerPool J} (hwf : wp.WF) {f : J} {k : Nat}
    (hq : wp.queuedWithin f k) {g : Nat} (hg : g < wp.workers.length) :
    wp.inState g WorkerState.ready ∨ ∃ j, wp.inState g (WorkerState.running j) := by
  obtain ⟨pre, post, hb, _⟩ := hq
  have hrq : wp.jobs.recvq = [] := by
    by_contra hne
    have := hwf.idle hne
    rw [hb] at this; simp at this
  have hw : wp.workers[g]? = some wp.workers[g] := by simp [hg]
  cases hst : wp.workers[g].state with
  | ready => exact Or.inl ⟨_, hw, hst⟩
  | running j => exact Or.inr ⟨j, _, hw, hst⟩
  | parked =>
    have := (hwf.parked g).mpr ⟨_, hw, hst⟩
    rw [hrq] at this; simp at this

theorem Send_accepted_place {J : Type} {wp : WorkerPool J} (hwf : wp.WF) {f : J}
    (hacc : (wp.Send f).1 = none) :
    (wp.Send f).2.queuedWithin f wp.jobs.buf.length ∨
      ∃ g, (wp.Send f).2.inState g (WorkerState.running f) := by
  rcases Send_cases hwf f with ⟨_, _, h⟩ | ⟨g0, rest, w0, _, _, hw0, _, h⟩ | ⟨_, _, h⟩
  · left; rw [h]
    exact ⟨wp.jobs.buf, [], rfl, le_refl _⟩
  · right; rw [h]
    exact ⟨g0, set_inState hw0 _⟩
  · rw [h] at hacc; cases hacc

theorem wait_for_turn {J : Type} (sched : Nat → Action J) (g : Nat) (P Q : Nat → Prop)
    (hstep : ∀ t, P t → sched t ≠ Action.work g → P (t + 1) ∨ Q (t + 1)) (d : Nat) :
    ∀ m, P m → sched (m + d) = Action.work g →
      (∃ t, m ≤ t ∧ Q t) ∨ (∃ t, m ≤ t ∧ P t ∧ sched t = Action.work g) := by
  induction d with
  | zero => intro m hP hs; exact Or.inr ⟨m, le_refl _, hP, hs⟩
  | succ d ih =>
    intro m hP hs
    by_cases hm : sched m = Action.work g
    · exact Or.inr ⟨m, le_refl _, hP, hm⟩
    · rcases hstep m hP hm with h1 | h1
      · have hs1 : sched (m + 1 + d) = Action.work g := by
          rw [← hs]; congr 1; omega
        rcases ih (m + 1) h1 hs1 with ⟨t, ht, hq⟩ | ⟨t, ht, hp, hst⟩
        · exact Or.inl ⟨t, by omega, hq⟩
        · exact Or.inr ⟨t, by omega, hp, hst⟩
      · exact Or.inl ⟨m + 1, by omega, h1⟩

theorem fair_turn {J : Type} {numWorkers : Nat} {sched : Nat → Action J}
    (hfair : Fair numWorkers sched) {g : Nat} (hg : g < numWorkers) (m : Nat) :
    ∃ d, sched (m + d) = Action.work g := by
  obtain ⟨m1, hle, hs⟩ := hfair g hg m
  exact ⟨m1 - m, by rw [← hs]; congr 1; omega⟩

theorem running_eventually_called {J : Type} {call : J → Int → Except RuntimePanic Unit}
    {sched : Nat → Action J} {st : Nat → WorkerPool J}
    (hwf : ∀ t, (st t).WF)
    (hrun : ∀ t, (st t).step call (sched t) = .ok (st (t + 1)))
    (hfair : Fair (st 0).workers.length sched) {f : J} {g m : Nat}
    (hr : (st m).inState g (WorkerState.running f)) :
    ∃ t id, m < t ∧ (f, id) ∈ (st t).calls := by
  have hg : g < (st 0).workers.length := by
    obtain ⟨w, hw, _⟩ := hr
    rw [← inf_length hrun m]; exact getElem?_lt hw
  obtain ⟨d, hd⟩ := fair_turn hfair hg m
  have key := wait_for_turn sched g (fun t => (st t).inState g (WorkerState.running f))
    (fun _ => False)
    (fun t hP hne => Or.inl (step_running_stable (hwf t) (hrun t) hP hne)) d m hr hd
  rcases key with ⟨_, _, hF⟩ | ⟨t, ht, hP, hs⟩
  · exact absurd hF id
  · have hstep := hrun t
    rw [hs] at hstep
    obtain ⟨⟨i, hi⟩, _, _⟩ := work_running_finish hstep hP
    exact ⟨t + 1, i, by omega, hi⟩

theorem queued_step_down {J : Type} {call : J → Int → Except RuntimePanic Unit}
    {sched : Nat → Action J} {st : Nat → WorkerPool J}
    (hwf : ∀ t, (st t).WF)
    (hrun : ∀ t, (st t).step call (sched t) = .ok (st (t + 1)))
    (hfair : Fair (st 0).workers.length sched) (hpos : 0 < (st 0).workers.length)
    {f : J} {k m : Nat} (hq : (st m).queuedWithin f k) :
    ∃ t, m ≤ t ∧ ((∃ g, (st t).inState g (WorkerState.running f)) ∨
      (1 ≤ k ∧ (st t).queuedWithin f (k - 1))) := by
  -- once worker 0 is ready with `f` queued, its next turn takes a job off the queue
  have ready_case : ∀ m1, (st m1).queuedWithin f k → (st m1).inState 0 WorkerState.ready →
      ∃ t, m1 ≤ t ∧ ((∃ g, (st t).inState g (WorkerState.running f)) ∨
        (1 ≤ k ∧ (st t).queuedWithin f (k - 1))) := by
    intro m1 hq1 hr1
    obtain ⟨d, hd⟩ := fair_turn hfair hpos m1
    have key := wait_for_turn sched 0
      (fun t => (st t).queuedWithin f k ∧ (st t).inState 0 WorkerState.ready)
      (fun t => ∃ g, (st t).inState g (WorkerState.running f))
      (fun t hP hne => by
        rcases step_queued (hwf t) (hrun t) hP.1 with h | h
        · exact Or.inl ⟨h, step_ready_stable (hwf t) (hrun t) hP.2 hne⟩
        · exact Or.inr h) d m1 ⟨hq1, hr1⟩ hd
    rcases key with ⟨t, ht, hQ⟩ | ⟨t, ht, hP, hs⟩
    · exact ⟨t, ht, Or.inl hQ⟩
    · have hstep := hrun t
      rw [hs] at hstep
      exact ⟨t + 1, by omega, work_receive hstep hP.1 hP.2⟩
  have h0 : 0 < (st m).workers.length := by rw [inf_length hrun m]; exact hpos
  rcases queued_not_parked (hwf m) hq h0 with hr | ⟨j, hr⟩
  · exact ready_case m hq hr
  · obtain ⟨d, hd⟩ := fair_turn hfair hpos m
    have key := wait_for_turn sched 0
      (fun t => (st t).queuedWithin f k ∧ (st t).inState 0 (WorkerState.running j))
      (fun t => ∃ g, (st t).inState g (WorkerState.running f))
      (fun t hP hne => by
        rcases step_queued (hwf t) (hrun t) hP.1 with h | h
        · exact Or.inl ⟨h, step_running_stable (hwf t) (hrun t) hP.2 hne⟩
        · exact Or.inr h) d m ⟨hq, hr⟩ hd
    rcases key with ⟨t, ht, hQ⟩ | ⟨t, ht, hP, hs⟩
    · exact ⟨t, ht, Or.inl hQ⟩
    · have hstep := hrun t
      rw [hs] at hstep
      obtain ⟨_, hready, hbuf⟩ := work_running_finish hstep hP.2
      have hq1 : (st (t + 1)).queuedWithin f k := by
        obtain ⟨pre, post, hb, hk⟩ := hP.1
        exact ⟨pre, post, by rw [hbuf]; exact hb, hk⟩
      obtain ⟨t1, ht1, h⟩ := ready_case (t + 1) hq1 hready
      exact ⟨t1, by omega, h⟩

theorem queued_eventually_running {J : Type} {call : J → Int → Except RuntimePanic Unit}
    {sched : Nat → Action J} {st : Nat → WorkerPool J}
    (hwf : ∀ t, (st t).WF)
    (hrun : ∀ t, (st t).step call (sched t) = .ok (st (t + 1)))
    (hfair : Fair (st 0).workers.length sched) (hpos : 0 < (st 0).workers.length)
    {f : J} (k : Nat) :
    ∀ m, (st m).queuedWithin f k →
      ∃ t g, m ≤ t ∧ (st t).inState g (WorkerState.running f) := by
  induction k with
  | zero =>
    intro m hq
    obtain ⟨t, ht, h⟩ := queued_step_down hwf hrun hfair hpos hq
    rcases h with ⟨g, hg⟩ | ⟨h1, _⟩
    · exact ⟨t, g, ht, hg⟩
    · omega
  | succ k ih =>
    intro m hq
    obtain ⟨t, ht, h⟩ := queued_step_down hwf hrun hfair hpos hq
    rcases h with ⟨g, hg⟩ | ⟨_, hq1⟩
    · exact ⟨t, g, ht, hg⟩
    · obtain ⟨t1, g, ht1, hg⟩ := ih t hq1
      exact ⟨t1, g, by omega, hg⟩

theorem accepted_eventually_called {J : Type} {call : J → Int → Except RuntimePanic Unit}
    {sched : Nat → Action J} {st : Nat → WorkerPool J}
    (hwf : ∀ t, (st t).WF)
    (hrun : ∀ t, (st t).step call (sched t) = .ok (st (t + 1)))
    (hfair : Fair (st 0).workers.length sched) (hpos : 0 < (st 0).workers.length)
    {f : J} {n : Nat} (hs : sched n = Action.send f) (hacc : ((st n).Send f).1 = none) :
    ∃ t id, n < t ∧ (f, id) ∈ (st t).calls := by
  have hstep := hrun n
  rw [hs] at hstep
  simp only [WorkerPool.step, Except.ok.injEq] at hstep
  have hplace := Send_accepted_place (hwf n) hacc
  rw [hstep] at hplace
  rcases hplace with hq | ⟨g, hg⟩
  · obtain ⟨t, g, ht, hg⟩ := queued_eventually_running hwf hrun hfair hpos _ (n + 1) hq
    obtain ⟨t1, i, ht1, hi⟩ := running_eventually_called hwf hrun hfair hg
    exact ⟨t1, i, by omega, hi⟩
  · obtain ⟨t1, i, ht1, hi⟩ := running_eventually_called hwf hrun hfair hg
    exact ⟨t1, i, by omega, hi⟩

theorem acceptedBy_count {J : Type} [DecidableEq J] (sched : Nat → Action J)
    (st : Nat → WorkerPool J) (f : J) (n : Nat)
    (huniq : ∀ m, sched m = Action.send f → m = n) :
    ∀ t, (acceptedBy sched st t).count f ≤ if n < t then 1 else 0 := by
  intro t
  induction t with
  | zero => simp [acceptedBy]
  | succ t ih =>
    have hat : ((st t).acceptedAt (sched t)).count f ≤ if t = n then 1 else 0 := by
      cases hs : sched t with
      | work g => simp [WorkerPool.acceptedAt]
      | send x =>
        simp only [WorkerPool.acceptedAt]
        by_cases hx : x = f
        · subst hx
          rw [if_pos (huniq t hs)]
          split_ifs <;> simp
        · split_ifs <;> simp [List.count_cons, hx]
    simp only [acceptedBy, List.count_append]
    split_ifs at ih hat ⊢ <;> omega

theorem run_without_workers {J : Type} {call : J → Int → Except RuntimePanic Unit}
    (acts : List (Action J)) :
    ∀ {wp st : WorkerPool J}, wp.workers = [] → wp.jobs.recvq = [] → wp.calls = [] →
      wp.run call acts = .ok st →
      st.calls = [] ∧ ∃ more, st.jobs.buf = wp.jobs.buf ++ more := by
  induction acts with
  | nil =>
    intro wp st _ _ hc hr
    simp only [WorkerPool.run, Except.ok.injEq] at hr
    subst hr; exact ⟨hc, [], by simp⟩
  | cons a acts ih =>
    intro wp st hw hq hc hr
    obtain ⟨wp1, hs, hr1⟩ := run_cons_ok hr
    cases a with
    | send f =>
      simp only [WorkerPool.step, Except.ok.injEq] at hs
      subst hs
      by_cases hlt : wp.jobs.buf.length < wp.jobs.dataqsiz
      · have h : wp.Send f =
            (none, { wp with jobs := { wp.jobs with buf := wp.jobs.buf ++ [f] } }) := by
          unfold WorkerPool.Send; rw [hq]; simp only [hlt, if_true]
        rw [h] at hr1
        obtain ⟨h1, more, h2⟩ := @ih { wp with
          jobs := { wp.jobs with buf := wp.jobs.buf ++ [f] } } st hw hq hc hr1
        exact ⟨h1, [f] ++ more, by rw [h2]; simp⟩
      · have h : wp.Send f = (some { text := "Worker pool channel full." }, wp) := by
          unfold WorkerPool.Send; rw [hq]; simp only [hlt, if_false]
        rw [h] at hr1
        exact ih hw hq hc hr1
    | work g =>
      have h : wp1 = wp := by
        simp only [WorkerPool.step, WorkerPool.work, hw, List.getElem?_nil,
          Except.ok.injEq] at hs
        exact hs.symm
      subst h
      exact ih hw hq hc hr1

/-! ## Worker pool: execution of accepted jobs -/

/-- C6 as stated fails without workers: the pool made by `New` with
`NumWorkers = 0` and `QueueSize = 1` accepts the job 7, and in every state
reached afterwards, whatever is done, no call has been made and the job is
still waiting in the queue. -/
theorem accepted_job_never_run_without_workers :
    ∃ wp0 : WorkerPool Nat,
      WorkerPoolFactory.New 16 { NumWorkers := 0, QueueSize := 1 } = .ok wp0 ∧
      (wp0.Send 7).1 = none ∧
      ∀ (acts : List (Action Nat)) (st : WorkerPool Nat),
        (wp0.Send 7).2.run (fun _ _ => .ok ()) acts = .ok st →
          st.calls = [] ∧ 7 ∈ st.jobs.buf := by
  refine ⟨_, rfl, rfl, ?_⟩
  intro acts st hr
  obtain ⟨h1, more, h2⟩ := run_without_workers acts rfl rfl rfl hr
  refine ⟨h1, ?_⟩
  rw [h2]
  exact List.mem_append_left _ (by decide)

/-- C6, amended: along every run of a pool made by `New` (any interleaving of
`Send` calls and worker turns in which no call panics), at every moment the
workers carry the fixed, distinct ids 0 .. NumWorkers-1, every call made so
far was made with a worker id in that range, and the jobs accepted so far are,
counted with multiplicity, exactly the jobs already called together with
those still held by a worker or waiting in the queue: none is dropped and none
is called more often than it was accepted.  If moreover the pool has at least
one worker and the schedule is fair (every worker gets its turns and every
call returns), then a job that `Send` accepted (and that is submitted only that
once) is eventually called, by a worker whose id is in range, and is never
called twice. -/
theorem accepted_job_runs_exactly_once {J : Type} [DecidableEq J]
    (call : J → Int → Except RuntimePanic Unit) (maxElems : Nat) (wpf : WorkerPoolFactory)
    (sched : Nat → Action J) (st : Nat → WorkerPool J)
    (hnew : wpf.New maxElems = .ok (st 0))
    (hrun : ∀ t, (st t).step call (sched t) = .ok (st (t + 1))) :
    (∀ t,
      (st t).workers.map (fun w => w.id) =
        (List.range wpf.NumWorkers.toNat).map (fun (i : Nat) => (i : Int)) ∧
      (∀ c ∈ (st t).calls, 0 ≤ c.2 ∧ c.2 < wpf.NumWorkers) ∧
      (acceptedBy sched st t).Perm ((st t).calls.map Prod.fst ++ (st t).pending)) ∧
    (1 ≤ wpf.NumWorkers → Fair wpf.NumWorkers.toNat sched →
      ∀ n f, sched n = Action.send f → ((st n).Send f).1 = none →
        (∀ m, sched m = Action.send f → m = n) →
        ∃ m id, n < m ∧ 0 ≤ id ∧ id < wpf.NumWorkers ∧ (f, id) ∈ (st m).calls ∧
          ∀ t, ((st t).calls.map Prod.fst).count f ≤ 1) := by
  have hwf := inf_WF (New_WF hnew) hrun
  have hlen0 : (st 0).workers.length = wpf.NumWorkers.toNat := by
    obtain ⟨_, _, h⟩ := New_ok hnew
    rw [h]; simp
  have hlen : ∀ t, (st t).workers.length = wpf.NumWorkers.toNat := fun t => by
    rw [inf_length hrun t, hlen0]
  have htot := inf_total hnew hrun
  have hids : ∀ t, ∀ c ∈ (st t).calls, 0 ≤ c.2 ∧ c.2 < wpf.NumWorkers := by
    intro t c hc
    have h := (hwf t).callIds c hc
    rw [hlen t] at h
    omega
  refine ⟨fun t => ⟨?_, hids t, htot t⟩, ?_⟩
  · rw [ids_of_WF (hwf t), hlen t]
  · intro hpos hfair n f hs hacc huniq
    have hfair0 : Fair (st 0).workers.length sched := by rw [hlen0]; exact hfair
    have hpos0 : 0 < (st 0).workers.length := by rw [hlen0]; omega
    obtain ⟨m, i, hm, hi⟩ := accepted_eventually_called hwf hrun hfair0 hpos0 hs hacc
    refine ⟨m, i, hm, (hids m _ hi).1, (hids m _ hi).2, hi, ?_⟩
    intro t
    have h1 := (htot t).count_eq f
    have h2 := acceptedBy_count sched st f n huniq t
    rw [List.count_append] at h1
    split_ifs at h2 <;> omega

theorem demoRun_steps :
    ∀ t, (demoRun t).step (fun _ _ => .ok ()) (demoSched t) = .ok (demoRun (t + 1))
  | 0 => rfl
  | 1 => rfl
  | 2 => rfl
  | 3 => rfl
  | _ + 4 => rfl

theorem demoSched_fair : Fair 1 demoSched := by
  intro g hg n
  have h0 : g = 0 := by omega
  subst h0
  exact ⟨n + 1, by omega, rfl⟩

theorem demoSched_once : ∀ m, demoSched m = Action.send 7 → m = 0 := by
  intro m h
  cases m with
  | zero => rfl
  | succ m => simp [demoSched] at h

/-- The execution theorem at the pool with one worker and capacity 1, run under
`demoSched`: the accepted job 7 is called by worker 0, once. -/
theorem accepted_job_runs_exactly_once_witness :
    WorkerPoolFactory.New 16 { NumWorkers := 1, QueueSize := 1 } = .ok (demoRun 0) ∧
    (∀ t, (demoRun t).step (fun _ _ => .ok ()) (demoSched t) = .ok (demoRun (t + 1))) ∧
    Fair 1 demoSched ∧
    demoSched 0 = Action.send 7 ∧ ((demoRun 0).Send 7).1 = none ∧
    ∃ m id, 0 < m ∧ 0 ≤ id ∧ id < (1 : Int) ∧ (7, id) ∈ (demoRun m).calls ∧
      ∀ t, ((demoRun t).calls.map Prod.fst).count 7 ≤ 1 :=
  ⟨rfl, demoRun_steps, demoSched_fair, rfl, rfl,
    (accepted_job_runs_exactly_once (fun _ _ => .ok ()) 16 { NumWorkers := 1, QueueSize := 1 }
      demoSched demoRun rfl demoRun_steps).2 (by decide) demoSched_fair 0 7 rfl rfl
      demoSched_once⟩

/-! ## Worker pool: a burst of sends -/

theorem Send_room_left {J : Type} {wp : WorkerPool J} (hwf : wp.WF) (f : J) :
    ((wp.Send f).1 = none ∧
      (wp.Send f).2.jobs.recvq.length +
        ((wp.Send f).2.jobs.dataqsiz - (wp.Send f).2.jobs.buf.length) + 1 =
      wp.jobs.recvq.length + (wp.jobs.dataqsiz - wp.jobs.buf.length)) ∨
    ((wp.Send f).1 = some { text := "Worker pool channel full." } ∧
      (wp.Send f).2 = wp ∧
      wp.jobs.recvq.length + (wp.jobs.dataqsiz - wp.jobs.buf.length) = 0) := by
  rcases Send_cases hwf f with ⟨hq, hlt, hs⟩ | ⟨g, rest, w, hq, hb, _, _, hs⟩ | ⟨hq, hle, hs⟩
  · left
    rw [hs]
    refine ⟨rfl, ?_⟩
    simp only [hq, List.length_nil, List.length_append, List.length_singleton]
    omega
  · left
    rw [hs]
    refine ⟨rfl, ?_⟩
    simp only [hq, hb, List.length_nil, List.length_cons]
    omega
  · right
    rw [hs]
    refine ⟨rfl, rfl, ?_⟩
    simp only [hq, List.length_nil]
    omega

theorem sendAll_results {J : Type} (fs : List J) :
    ∀ wp : WorkerPool J, wp.WF →
      (wp.sendAll fs).1 =
        List.replicate
          (min (wp.jobs.recvq.length + (wp.jobs.dataqsiz - wp.jobs.buf.length)) fs.length)
          none ++
        List.replicate
          (fs.length - (wp.jobs.recvq.length + (wp.jobs.dataqsiz - wp.jobs.buf.length)))
          (some { text := "Worker pool channel full." }) := by
  induction fs with
  | nil => intro wp _; simp [WorkerPool.sendAll]
  | cons f fs ih =>
    intro wp hwf
    have ih1 := ih (wp.Send f).2 (Send_WF hwf f)
    simp only [WorkerPool.sendAll, List.length_cons]
    rw [ih1]
    rcases Send_room_left hwf f with ⟨hr, hk⟩ | ⟨hr, hsame, hk⟩
    · rw [hr]
      have e1 : min (wp.jobs.recvq.length + (wp.jobs.dataqsiz - wp.jobs.buf.length))
          (fs.length + 1) =
          min ((wp.Send f).2.jobs.recvq.length +
            ((wp.Send f).2.jobs.dataqsiz - (wp.Send f).2.jobs.buf.length)) fs.length + 1 := by
        omega
      have e2 : fs.length + 1 -
          (wp.jobs.recvq.length + (wp.jobs.dataqsiz - wp.jobs.buf.length)) =
          fs.length - ((wp.Send f).2.jobs.recvq.length +
            ((wp.Send f).2.jobs.dataqsiz - (wp.Send f).2.jobs.buf.length)) := by
        omega
      rw [e1, e2, List.replicate_succ]
      rfl
    · rw [hr, hsame, hk]
      simp only [Nat.zero_min, List.replicate_zero, List.nil_append, Nat.sub_zero,
        List.replicate_succ]

theorem work_keeps_fresh {J : Type} {call : J → Int → Except RuntimePanic Unit}
    {wp wp1 : WorkerPool J} {g : Nat} (hs : wp.work call g = .ok wp1)
    (hb : wp.jobs.buf = []) (hc : wp.calls = []) (hh : heldJobs wp.workers = []) :
    wp1.jobs.buf = [] ∧ wp1.calls = [] ∧ heldJobs wp1.workers = [] := by
  have htot := work_total hs
  simp only [WorkerPool.pending, hb, hc, hh, List.map_nil, List.append_nil,
    List.perm_nil, List.append_eq_nil, List.map_eq_nil_iff] at htot
  exact ⟨htot.2.2, htot.1, htot.2.1⟩

theorem turns_keep_fresh {J : Type} {call : J → Int → Except RuntimePanic Unit}
    (turns : List Nat) :
    ∀ {wp st : WorkerPool J}, wp.jobs.buf = [] → wp.calls = [] → heldJobs wp.workers = [] →
      wp.run call (turns.map Action.work) = .ok st →
      st.jobs.buf = [] ∧ st.calls = [] ∧ heldJobs st.workers = [] := by
  induction turns with
  | nil =>
    intro wp st hb hc hh hr
    simp only [List.map_nil, WorkerPool.run, Except.ok.injEq] at hr
    subst hr; exact ⟨hb, hc, hh⟩
  | cons g turns ih =>
    intro wp st hb hc hh hr
    rw [List.map_cons] at hr
    obtain ⟨wp1, hs, hr1⟩ := run_cons_ok hr
    obtain ⟨hb1, hc1, hh1⟩ := work_keeps_fresh hs hb hc hh
    exact ih hb1 hc1 hh1 hr1

theorem recvq_length_le {J : Type} {wp : WorkerPool J} (hwf : wp.WF) :
    wp.jobs.recvq.length ≤ wp.workers.length := by
  have hsub : wp.jobs.recvq ⊆ List.range wp.workers.length := by
    intro g hg
    obtain ⟨w, hw, _⟩ := (hwf.parked g).mp hg
    exact List.mem_range.mpr (getElem?_lt hw)
  have := (List.subperm_of_subset hwf.nodup hsub).length_le
  simpa using this

/-- C2 as stated fails: in the pool made by `New` with three workers and
capacity 2, once the three workers have blocked in their receive (nothing has
been queued, nothing dequeued, no call made), six `Send` calls in a row, with
no worker turn in between, return nil five times and the queue-full error
once: the third call (the (C+1)th) does not fail, and five calls succeed, not
two. -/
theorem three_waiting_workers_take_three_more :
    ∃ wp0 wp : WorkerPool Nat,
      WorkerPoolFactory.New 16 { NumWorkers := 3, QueueSize := 2 } = .ok wp0 ∧
      wp0.run (fun _ _ => .ok ()) [Action.work 0, Action.work 1, Action.work 2] = .ok wp ∧
      wp.jobs.buf = [] ∧ wp.calls = [] ∧ wp.jobs.dataqsiz = 2 ∧
      (wp.sendAll [1, 2, 3, 4, 5, 6]).1 =
        [none, none, none, none, none, some { text := "Worker pool channel full." }] ∧
      (wp.sendAll [1, 2, 3, 4, 5, 6]).1[2]? = some none ∧
      (wp.sendAll [1, 2, 3, 4, 5, 6]).1.count none = 5 :=
  ⟨_, _, rfl, rfl, rfl, rfl, rfl, rfl, rfl, by decide⟩

/-- C2, amended: take the pool made by `New` with queue capacity C, let its
workers take any turns before anything is sent (the pool is still fresh:
nothing queued, no job held, no call made), and let W be the number of workers
then blocked in their receive.  For every list of M > C + W jobs (so in every
order of the calls), the M calls of `Send`, with no worker turn in between,
return nil for the first C + W and "Worker pool channel full." from the
(C+W+1)th on: exactly C + W succeed and exactly M - (C + W) fail.  When no
worker is blocked waiting (W = 0, as in the pool just returned by `New`) these
numbers are C and M - C. -/
theorem sends_succeed_up_to_capacity_plus_waiting {J : Type}
    (call : J → Int → Except RuntimePanic Unit) (maxElems : Nat) (wpf : WorkerPoolFactory)
    (wp0 wp : WorkerPool J) (turns : List Nat) (fs : List J)
    (hnew : wpf.New maxElems = .ok wp0)
    (hturns : wp0.run call (turns.map Action.work) = .ok wp)
    (hM : wpf.QueueSize.toNat + wp.jobs.recvq.length < fs.length) :
    wp.jobs.dataqsiz = wpf.QueueSize.toNat ∧
    wp.jobs.buf = [] ∧ wp.calls = [] ∧ heldJobs wp.workers = [] ∧
    wp.jobs.recvq.length ≤ wpf.NumWorkers.toNat ∧
    (wp.sendAll fs).1 =
      List.replicate (wpf.QueueSize.toNat + wp.jobs.recvq.length) none ++
      List.replicate (fs.length - (wpf.QueueSize.toNat + wp.jobs.recvq.length))
        (some { text := "Worker pool channel full." }) ∧
    (wp.sendAll fs).1.take (wpf.QueueSize.toNat + wp.jobs.recvq.length) =
      List.replicate (wpf.QueueSize.toNat + wp.jobs.recvq.length) none ∧
    (wp.sendAll fs).1[wpf.QueueSize.toNat + wp.jobs.recvq.length]? =
      some (some { text := "Worker pool channel full." }) ∧
    (wp.sendAll fs).1.count none = wpf.QueueSize.toNat + wp.jobs.recvq.length ∧
    (wp.sendAll fs).1.count (some { text := "Worker pool channel full." }) =
      fs.length - (wpf.QueueSize.toNat + wp.jobs.recvq.length) := by
  have hwf : wp.WF := run_WF _ (New_WF hnew) hturns
  have hcap : wp.jobs.dataqsiz = wpf.QueueSize.toNat := by
    rw [(run_dataqsiz _ hturns).1]
    obtain ⟨_, _, h⟩ := New_ok hnew
    rw [h]
  have hlen : wp.workers.length = wpf.NumWorkers.toNat := by
    rw [(run_dataqsiz _ hturns).2]
    obtain ⟨_, _, h⟩ := New_ok hnew
    rw [h]; simp
  have hfresh : wp.jobs.buf = [] ∧ wp.calls = [] ∧ heldJobs wp.workers = [] := by
    refine turns_keep_fresh turns ?_ ?_ ?_ hturns
    · obtain ⟨_, _, h⟩ := New_ok hnew
      rw [h]
    · obtain ⟨_, _, h⟩ := New_ok hnew
      rw [h]
    · obtain ⟨_, _, h⟩ := New_ok hnew
      rw [h]; exact heldJobs_ready _
  have h := sendAll_results fs wp hwf
  rw [hfresh.1, hcap] at h
  simp only [List.length_nil, Nat.sub_zero] at h
  rw [Nat.add_comm wp.jobs.recvq.length, min_eq_left (le_of_lt hM)] at h
  refine ⟨hcap, hfresh.1, hfresh.2.1, hfresh.2.2, ?_, h, ?_, ?_, ?_, ?_⟩
  · rw [← hlen]; exact recvq_length_le hwf
  · rw [h, List.take_left']
    simp
  · rw [h, List.getElem?_append_right (by simp)]
    simp only [List.length_replicate, Nat.sub_self]
    rw [List.getElem?_replicate]
    simp; omega
  · rw [h, List.count_append, List.count_replicate_self, List.count_replicate]
    simp
  · rw [h, List.count_append, List.count_replicate_self, List.count_replicate]
    simp

/-- The burst theorem at capacity 1 with two workers, one of them blocked
waiting: of three sends, two are accepted and the third refused. -/
theorem sends_succeed_up_to_capacity_plus_waiting_witness :
    ∃ wp0 wp : WorkerPool Nat,
      WorkerPoolFactory.New 16 { NumWorkers := 2, QueueSize := 1 } = .ok wp0 ∧
      wp0.run (fun _ _ => .ok ()) ([0].map Action.work) = .ok wp ∧
      (1 : Int).toNat + wp.jobs.recvq.length < [10, 11, 12].length ∧
      wp.jobs.recvq.length = 1 ∧
      (wp.sendAll [10, 11, 12]).1 =
        [none, none, some { text := "Worker pool channel full." }] :=
  ⟨_, _, rfl, rfl, by decide, rfl,
    (sends_succeed_up_to_capacity_plus_waiting (fun _ _ => .ok ()) 16
      { NumWorkers := 2, QueueSize := 1 } _ _ [0] [10, 11, 12] rfl rfl (by decide)).2.2.2.2.2.1⟩

/-! ## Worker pool: first in, first out -/

theorem Send_enqueue {J : Type} (wp : WorkerPool J) (f : J) :
    (wp.Send f).2.jobs.buf = wp.jobs.buf ++ wp.enqueuedAt (Action.send f) := by
  unfold WorkerPool.enqueuedAt WorkerPool.Send
  cases hq : wp.jobs.recvq with
  | nil =>
    by_cases hlt : wp.jobs.buf.length < wp.jobs.dataqsiz
    · simp [hlt]
    · simp [hlt]
  | cons g rest => simp

theorem work_dequeue {J : Type} {call : J → Int → Except RuntimePanic Unit}
    {wp wp1 : WorkerPool J} {g : Nat} (hs : wp.work call g = .ok wp1) :
    wp.tookUp wp1 g ++ wp1.jobs.buf = wp.jobs.buf := by
  unfold WorkerPool.tookUp
  rcases work_cases hs with ⟨h, rfl⟩ | ⟨w, h, hst, rfl⟩ | ⟨w, h, hst, hb, rfl⟩ |
    ⟨w, x, rest, h, hst, hb, rfl⟩ | ⟨w, j, h, hst, rfl⟩
  · simp [h]
  · simp [h, Worker.held, hst]
  · have hlt := getElem?_lt h
    simp [h, Worker.held, hst, hlt]
  · have hlt := getElem?_lt h
    simp [h, Worker.held, hst, hlt, hb]
  · have hlt := getElem?_lt h
    simp [h, Worker.held, hst, hlt]

theorem step_queue {J : Type} {call : J → Int → Except RuntimePanic Unit}
    {wp wp1 : WorkerPool J} {a : Action J} (hs : wp.step call a = .ok wp1) :
    wp.dequeuedAt wp1 a ++ wp1.jobs.buf = wp.jobs.buf ++ wp.enqueuedAt a := by
  cases a with
  | send f =>
    simp only [WorkerPool.step, Except.ok.injEq] at hs
    subst hs
    simp only [WorkerPool.dequeuedAt, List.nil_append]
    exact Send_enqueue wp f
  | work g =>
    simp only [WorkerPool.dequeuedAt, WorkerPool.enqueuedAt, List.append_nil]
    exact work_dequeue hs

theorem queue_law {J : Type} {call : J → Int → Except RuntimePanic Unit}
    (acts : List (Action J)) :
    ∀ {wp st : WorkerPool J}, wp.run call acts = .ok st →
      wp.dequeued call acts ++ st.jobs.buf = wp.jobs.buf ++ wp.enqueued call acts := by
  induction acts with
  | nil =>
    intro wp st hr
    simp only [WorkerPool.run, Except.ok.injEq] at hr
    subst hr
    simp [WorkerPool.dequeued, WorkerPool.enqueued]
  | cons a acts ih =>
    intro wp st hr
    obtain ⟨wp1, hs, hr1⟩ := run_cons_ok hr
    have h1 := step_queue hs
    have h2 := ih hr1
    simp only [WorkerPool.dequeued, WorkerPool.enqueued, hs, List.append_assoc]
    rw [h2, ← List.append_assoc, h1, List.append_assoc]

theorem nil_of_append_eq {α : Type} {l m : List α} (h : l ++ m = m) : l = [] := by
  have := congrArg List.length h
  simp only [List.length_append] at this
  exact List.eq_nil_of_length_eq_zero (by omega)

theorem work_takes_head {J : Type} {call : J → Int → Except RuntimePanic Unit}
    {wp wp1 : WorkerPool J} {g : Nat} (hs : wp.work call g = .ok wp1) :
    (wp1.jobs.buf = wp.jobs.buf ∧ wp.tookUp wp1 g = []) ∨
    ∃ x, wp.jobs.buf = x :: wp1.jobs.buf ∧ wp.tookUp wp1 g = [x] ∧
      wp.inState g WorkerState.ready ∧ wp1.inState g (WorkerState.running x) := by
  have hd := work_dequeue hs
  rcases work_cases hs with ⟨h, rfl⟩ | ⟨w, h, hst, rfl⟩ | ⟨w, h, hst, hb, rfl⟩ |
    ⟨w, x, rest, h, hst, hb, rfl⟩ | ⟨w, j, h, hst, rfl⟩
  · left; exact ⟨rfl, nil_of_append_eq hd⟩
  · left; exact ⟨rfl, nil_of_append_eq hd⟩
  · left; exact ⟨rfl, nil_of_append_eq hd⟩
  · right
    refine ⟨x, hb, ?_, ⟨w, h, hst⟩, set_inState h _⟩
    rw [hb] at hd
    have hlen := congrArg List.length hd
    simp only [List.length_append, List.length_cons] at hlen
    cases ht : wp.tookUp _ g with
    | nil => rw [ht] at hlen; simp at hlen
    | cons y ys =>
      rw [ht] at hd hlen
      simp only [List.cons_append, List.cons.injEq] at hd
      simp only [List.length_cons] at hlen
      have : ys = [] := List.eq_nil_of_length_eq_zero (by omega)
      rw [this, hd.1]
  · left; exact ⟨rfl, nil_of_append_eq hd⟩

/-- C7, amended: in every state of a pool made by `New`, `Send f` does exactly
one of three things.  With no worker waiting and a free slot it succeeds and
the queue becomes the previous queue with `f` appended at the tail, nothing
else changing; from then on, whatever happens, the jobs leave the queue in
the order: the jobs already queued, then `f`, then the jobs queued later
(first in, first out).  With a worker blocked in its receive (the queue is
then empty, so no queued job is overtaken) it succeeds, hands `f` directly to
a waiting worker and leaves the queue empty.  Otherwise it fails with
"Worker pool channel full." and leaves the pool, its queue included, exactly
as it was.  In every case the jobs that have left the queue followed by those
still in it are the jobs that were in it followed by those queued since, in
that order; and a job leaves the queue only from its head, taken up by the
worker whose turn it is. -/
theorem Send_appends_at_tail_or_hands_off {J : Type}
    (call : J → Int → Except RuntimePanic Unit) (maxElems : Nat) (wpf : WorkerPoolFactory)
    (wp0 wp : WorkerPool J) (acts : List (Action J)) (f : J)
    (hnew : wpf.New maxElems = .ok wp0) (hrun : wp0.run call acts = .ok wp) :
    ((wp.jobs.recvq = [] ∧ wp.jobs.buf.length < wp.jobs.dataqsiz ∧
        wp.Send f = (none, { wp with jobs := { wp.jobs with buf := wp.jobs.buf ++ [f] } }) ∧
        (wp.Send f).2.jobs.buf = wp.jobs.buf ++ [f] ∧
        ∀ (later : List (Action J)) (st : WorkerPool J),
          (wp.Send f).2.run call later = .ok st →
            (wp.Send f).2.dequeued call later ++ st.jobs.buf =
              wp.jobs.buf ++ f :: (wp.Send f).2.enqueued call later) ∨
      (∃ g rest w, wp.jobs.recvq = g :: rest ∧ wp.jobs.buf = [] ∧
        wp.workers[g]? = some w ∧ w.state = WorkerState.parked ∧
        wp.Send f = (none, { wp with
          jobs := { wp.jobs with recvq := rest }
          workers := wp.workers.set g { w with state := WorkerState.running f } }) ∧
        (wp.Send f).2.jobs.buf = []) ∨
      (wp.jobs.recvq = [] ∧ wp.jobs.dataqsiz ≤ wp.jobs.buf.length ∧
        wp.Send f = (some { text := "Worker pool channel full." }, wp) ∧
        (wp.Send f).2.jobs.buf = wp.jobs.buf)) ∧
    (∀ (later : List (Action J)) (st : WorkerPool J),
      (wp.Send f).2.run call later = .ok st →
        (wp.Send f).2.dequeued call later ++ st.jobs.buf =
          (wp.Send f).2.jobs.buf ++ (wp.Send f).2.enqueued call later) ∧
    (∀ (s s1 : WorkerPool J) (g : Nat), s.work call g = .ok s1 →
      (s1.jobs.buf = s.jobs.buf ∧ s.tookUp s1 g = []) ∨
      ∃ x, s.jobs.buf = x :: s1.jobs.buf ∧ s.tookUp s1 g = [x] ∧
        s.inState g WorkerState.ready ∧ s1.inState g (WorkerState.running x)) := by
  have hwf : wp.WF := run_WF acts (New_WF hnew) hrun
  refine ⟨?_, fun later st hr => queue_law later hr, fun s s1 g hs => work_takes_head hs⟩
  rcases Send_cases hwf f with ⟨hq, hlt, hs⟩ | ⟨g, rest, w, hq, hb, hw, hp, hs⟩ | ⟨hq, hle, hs⟩
  · left
    have hbuf : (wp.Send f).2.jobs.buf = wp.jobs.buf ++ [f] := by rw [hs]
    refine ⟨hq, hlt, hs, hbuf, ?_⟩
    intro later st hr
    rw [queue_law later hr, hbuf, List.append_assoc]
    rfl
  · right; left
    exact ⟨g, rest, w, hq, hb, hw, hp, hs, by rw [hs]; exact hb⟩
  · right; right
    exact ⟨hq, hle, hs, by rw [hs]⟩

/-- The queue theorem at a pool of capacity 2 with one worker in which job 5 is
queued: `Send 6` appends 6 behind 5, and four worker turns later the worker
has taken up 5 and then 6, in that order. -/
theorem Send_appends_at_tail_or_hands_off_witness :
    ∃ wp0 wp st : WorkerPool Nat,
      WorkerPoolFactory.New 16 { NumWorkers := 1, QueueSize := 2 } = .ok wp0 ∧
      wp0.run (fun _ _ => .ok ()) [Action.send 5] = .ok wp ∧
      (wp.Send 6).2.run (fun _ _ => .ok ())
        [Action.work 0, Action.work 0, Action.work 0, Action.send 8] = .ok st ∧
      wp.jobs.buf = [5] ∧ (wp.Send 6).2.jobs.buf = [5, 6] ∧
      (wp.Send 6).2.dequeued (fun _ _ => .ok ())
        [Action.work 0, Action.work 0, Action.work 0, Action.send 8] = [5, 6] ∧
      (wp.Send 6).2.dequeued (fun _ _ => .ok ())
          [Action.work 0, Action.work 0, Action.work 0, Action.send 8] ++ st.jobs.buf =
        (wp.Send 6).2.jobs.buf ++ (wp.Send 6).2.enqueued (fun _ _ => .ok ())
          [Action.work 0, Action.work 0, Action.work 0, Action.send 8] :=
  ⟨_, _, _, rfl, rfl, rfl, rfl, rfl, rfl,
    (Send_appends_at_tail_or_hands_off (fun _ _ => .ok ()) 16
      { NumWorkers := 1, QueueSize := 2 } _ _ [Action.send 5] 6 rfl rfl).2.1
      [Action.work 0, Action.work 0, Action.work 0, Action.send 8] _ rfl⟩

/-! ## Panics: where they come from -/

theorem work_error_iff (wp : WorkerPool GoFunc) (g : Nat) (p : RuntimePanic) :
    wp.work GoFunc.call g = .error p ↔
      ∃ w j, wp.workers[g]? = some w ∧ w.state = WorkerState.running j ∧
        j.call w.id = .error p := by
  constructor
  · intro h
    unfold WorkerPool.work at h
    cases hg : wp.workers[g]? with
    | none => rw [hg] at h; cases h
    | some w =>
      rw [hg] at h
      cases hst : w.state with
      | ready =>
        simp only [hst] at h
        cases hb : wp.jobs.buf with
        | nil => rw [hb] at h; cases h
        | cons x rest => rw [hb] at h; cases h
      | parked => simp only [hst] at h; cases h
      | running j =>
        simp only [hst] at h
        cases hc : j.call w.id with
        | error q =>
          rw [hc] at h
          cases h
          exact ⟨w, j, rfl, hst, hc⟩
        | ok u => rw [hc] at h; cases h
  · rintro ⟨w, j, hw, hst, hc⟩
    unfold WorkerPool.work
    rw [hw]
    simp only [hst, hc]

theorem GoFunc_call_error_iff (f : GoFunc) (id : Int) (p : RuntimePanic) :
    f.call id = .error p ↔
      (f = GoFunc.nil ∧ p = RuntimePanic.nilFuncCall) ∨
      (∃ body, f = GoFunc.closure body ∧ body id = false ∧ p = RuntimePanic.jobPanicked) := by
  cases f with
  | nil =>
    simp only [GoFunc.call, Except.error.injEq, true_and, reduceCtorEq, false_and, exists_false,
      or_false]
    exact eq_comm
  | closure body =>
    by_cases hb : body id = true
    · simp [GoFunc.call, hb]
    · simp only [Bool.not_eq_true] at hb
      simp only [GoFunc.call, hb, Bool.false_eq_true, if_false, Except.error.injEq, reduceCtorEq,
        false_and, GoFunc.closure.injEq, exists_eq_left', true_and, false_or]
      exact eq_comm

/-- C9, amended: the operations panic in these cases and in no other
(running out of memory or of execution contexts for the workers, the
resource failure the spec names, is left aside).
`New` panics, with "makechan: size out of range", exactly when `QueueSize` is
negative or beyond the largest channel the run time can make, whatever
`NumWorkers` is; for any other `QueueSize` and every `NumWorkers` (zero and
negative included) it returns a pool.
`Send` panics only through a nil receiver: on a pool it returns nil or the
queue-full error for every job, the nil func included, which it stores without
calling.
A worker's turn panics exactly when the worker is calling a job that is the
nil func or whose body panics.
`HandleRequest` panics exactly when its receiver, its logger or its sender is
nil, for every worker id and request; `IncrementBucket` panics exactly when
its receiver or the health monitor is nil, for every size. -/
theorem panics_only_from_bad_arguments (maxElems : Nat) (wpf : WorkerPoolFactory)
    (pool : Option (WorkerPool GoFunc)) (wp : WorkerPool GoFunc) (f : GoFunc) (g : Nat)
    (p : RuntimePanic)
    (ch : Option HandlerValue) (present : CaduceusHandler) (now : Time) (workerID : Int)
    (inRequest : CaduceusRequest)
    (health : Option HealthValue) (monitor : CaduceusHealth) (inSize : Int) :
    -- New
    (((wpf.New maxElems : Except RuntimePanic (WorkerPool GoFunc)) =
        .error .makechanSizeOutOfRange) ↔
      wpf.QueueSize < 0 ∨ (maxElems : Int) < wpf.QueueSize) ∧
    ((∃ wp0 : WorkerPool GoFunc, wpf.New maxElems = .ok wp0) ↔
      0 ≤ wpf.QueueSize ∧ wpf.QueueSize ≤ maxElems) ∧
    -- Send
    (SendCall pool f = .error .nilDereference ↔ pool = none) ∧
    ((∃ r, SendCall pool f = .ok r) ↔ pool ≠ none) ∧
    SendCall (some wp) f = .ok (wp.Send f) ∧
    wp.step GoFunc.call (Action.send f) = .ok (wp.Send f).2 ∧
    ((wp.Send f).1 = none ∨ (wp.Send f).1 = some { text := "Worker pool channel full." }) ∧
    -- a worker's turn
    ((∃ wp1, wp.work GoFunc.call g = .ok wp1) ↔
      ∀ w j, wp.workers[g]? = some w → w.state = WorkerState.running j →
        ∃ body, j = GoFunc.closure body ∧ body w.id = true) ∧
    (wp.work GoFunc.call g = .error p ↔
      ∃ w j, wp.workers[g]? = some w ∧ w.state = WorkerState.running j ∧
        ((j = GoFunc.nil ∧ p = RuntimePanic.nilFuncCall) ∨
          (∃ body, j = GoFunc.closure body ∧ body w.id = false ∧
            p = RuntimePanic.jobPanicked))) ∧
    -- HandleRequest
    (HandleRequestCall ch now workerID inRequest = .error .nilDereference ↔
      ¬ ∃ h lg sw, ch = some h ∧ h.logger = some lg ∧ h.senderWrapper = some sw) ∧
    ((∃ r, HandleRequestCall ch now workerID inRequest = .ok r) ↔
      ∃ h lg sw, ch = some h ∧ h.logger = some lg ∧ h.senderWrapper = some sw) ∧
    HandleRequestCall
        (some { handlerProfiler := present.handlerProfiler,
                senderWrapper := some present.senderWrapper, logger := some present.logger })
        now workerID inRequest =
      .ok (present.HandleRequest now workerID inRequest) ∧
    -- IncrementBucket
    (IncrementBucketCall health inSize = .error .nilDereference ↔
      ¬ ∃ h m, health = some h ∧ h.Monitor = some m) ∧
    ((∃ r, IncrementBucketCall health inSize = .ok r) ↔
      ∃ h m, health = some h ∧ h.Monitor = some m) ∧
    IncrementBucketCall (some { Monitor := some monitor }) inSize =
      .ok (monitor.IncrementBucket inSize) := by
  refine ⟨New_error_iff maxElems wpf, New_ok_iff maxElems wpf, ?_, ?_, rfl, rfl, ?_,
    work_ok_iff wp g, ?_, ?_, ?_, rfl, ?_, ?_, rfl⟩
  · cases pool <;> simp [SendCall]
  · cases pool <;> simp [SendCall]
  · rw [Send_fst]
    split_ifs
    · exact Or.inl rfl
    · exact Or.inr rfl
  · rw [work_error_iff]
    constructor
    · rintro ⟨w, j, hw, hst, hc⟩
      exact ⟨w, j, hw, hst, (GoFunc_call_error_iff j w.id p).mp hc⟩
    · rintro ⟨w, j, hw, hst, hc⟩
      exact ⟨w, j, hw, hst, (GoFunc_call_error_iff j w.id p).mpr hc⟩
  · unfold HandleRequestCall
    cases ch with
    | none => simp
    | some h => cases hl : h.logger <;> cases hs : h.senderWrapper <;> simp [hl, hs]
  · unfold HandleRequestCall
    cases ch with
    | none => simp
    | some h => cases hl : h.logger <;> cases hs : h.senderWrapper <;> simp [hl, hs]
  · unfold IncrementBucketCall
    cases health with
    | none => simp
    | some h => cases hm : h.Monitor <;> simp [hm]
  · unfold IncrementBucketCall
    cases health with
    | none => simp
    | some h => cases hm : h.Monitor <;> simp [hm]

end Caduceus
